import Mathlib

/-!
# A shallow embedding of the feast_server_rust online-feature-serving pipeline

This file embeds, as executable Lean definitions, the parts of the
repository that the verified claims are about:

* the binary entity-key codec (`src/core/src/key_serialization.rs`);
* the value model and coercions (`src/feast-server-core/src/model.rs`);
* the request planner (`src/feast-server-core/src/feature_store/feature_store_impl.rs`);
* the response builder (`src/feast-server-core/src/feature_store/response_builder.rs`);
* the registry feature resolution (`src/feast-server-core/src/registry/file_registry.rs`);
* the per-key / per-view row production of the two online-store adapters
  (`src/feast-server-core/src/onlinestore/redis.rs`, `sqlite_onlinestore.rs`).

Modelling conventions, used throughout:

* Rust byte strings are `List Nat` (each element intended `< 256`);
  Rust `String` is Lean `String`, with its UTF-8 byte sequence given by
  an explicit arithmetic UTF-8 encoder (`strBytes`) that mirrors
  `str::as_bytes`, and `String::from_utf8` mirrored by a strict decoder.
* Machine integers are `Nat`/`Int` with explicit `% 2^w` where Rust wraps.
* Fallible Rust code returns `Res α`: `ok`, `err e` (an `anyhow`/enum
  error), or `panic` — the third constructor records that the Rust code
  would panic (out-of-bounds slice or index, `.expect`) rather than
  return an error value.
* Rust `HashMap`/`HashSet` used purely through `get`/`insert`/`remove`
  are modelled as functions `κ → Option α` (or `κ → List α`);
  where the code *iterates* a hash container the model takes the
  iteration order as an explicit list argument (Rust's order is
  arbitrary; claims about iteration-order effects quantify over it).
* `Utc::now()` is passed in as an explicit integer `now` parameter;
  timestamps are integers.  `chrono`'s `checked_add_signed` only fails
  outside the representable datetime range (≈ ±262000 years), which no
  claim exercises, so the model treats the addition as total.
-/

namespace FeastModel

/-- Typed error values: each constructor stands for one `anyhow!`/enum
error message produced in the source. -/
inductive RErr where
  | missingValue
  | unsupportedType
  | unsupportedVersion
  | keyNotFoundInMap
  | invalidEnumValue (n : Int)
  | incorrectSizeInt32
  | incorrectSizeInt64
  | unsupportedSerializedType (n : Int)
  | invalidUtf8
  | incorrectKeyType
  | missingEntityColumnMapping (col view : String)
  | noEntityColumns (view : String)
  | missingEntityKey (key feature : String)
  | unsupportedNumberCoercion
  | invalidEntityKeyRow
  | unsupportedEntityValueType
  | emptyEntityIdValue
  | emptyFeatureString
  | badRequestedFeatures
  | onDemandNotSupported
  | featureViewNotFound (name : String)
  deriving DecidableEq, Repr

/-- Outcome of running a piece of Rust code: a value, an error value
(`anyhow::Error`, identified by its message), or a panic. -/
inductive Res (α : Type) where
  | ok (a : α)
  | err (e : RErr)
  | panic
  deriving DecidableEq, Repr

namespace Res

def bind {α β : Type} : Res α → (α → Res β) → Res β
  | .ok a, f => f a
  | .err e, _ => .err e
  | .panic, _ => .panic

instance : Monad Res where
  pure := .ok
  bind := Res.bind

end Res

/-- Fail with a typed error (`return Err(anyhow!(..))`). -/
def Res.fail {α : Type} (e : RErr) : Res α := .err e

@[simp] theorem Res.bind_ok {α β : Type} (a : α) (f : α → Res β) :
    Res.bind (.ok a) f = f a := rfl

@[simp] theorem Res.bind_err {α β : Type} (e : RErr) (f : α → Res β) :
    Res.bind (.err e) f = .err e := rfl

@[simp] theorem Res.bind_panic {α β : Type} (f : α → Res β) :
    Res.bind .panic f = .panic := rfl

@[simp] theorem Res.pure_eq_ok {α : Type} (a : α) : (pure a : Res α) = .ok a := rfl

@[simp] theorem Res.monad_bind_eq_bind {α β : Type} (x : Res α) (f : α → Res β) :
    x >>= f = Res.bind x f := rfl

/-! ## UTF-8

`strBytes` mirrors Rust's `str::as_bytes` (the UTF-8 encoding of the
string); `strFromBytes` mirrors `String::from_utf8` (strict decoding,
rejecting lone continuation bytes, overlong forms, surrogates and
out-of-range code points). -/

/-- The UTF-8 bytes of one scalar value (arithmetic form of the usual
bit-twiddling encoder). -/
def charUtf8 (c : Char) : List Nat :=
  let n := c.toNat
  if n < 0x80 then [n]
  else if n < 0x800 then [0xC0 + n / 64, 0x80 + n % 64]
  else if n < 0x10000 then [0xE0 + n / 4096, 0x80 + n / 64 % 64, 0x80 + n % 64]
  else [0xF0 + n / 262144, 0x80 + n / 4096 % 64, 0x80 + n / 64 % 64, 0x80 + n % 64]

/-- UTF-8 bytes of a string (`str::as_bytes`). -/
def strBytes (s : String) : List Nat :=
  s.data.flatMap charUtf8

/-- Strict decoding of one UTF-8 scalar value from the front of a byte
list: the decoded code point and the remaining bytes. Rejects stray
continuation bytes, truncated sequences, overlong forms, surrogates and
out-of-range code points, exactly as Rust's `String::from_utf8`. -/
def utf8DecodeOne : List Nat → Option (Nat × List Nat)
  | [] => none
  | b0 :: rest =>
    if b0 < 0x80 then some (b0, rest)
    else if b0 < 0xC0 then none
    else if b0 < 0xE0 then
      match rest with
      | b1 :: r =>
        if 0x80 ≤ b1 ∧ b1 < 0xC0 ∧ 0x80 ≤ (b0 - 0xC0) * 64 + (b1 - 0x80) then
          some ((b0 - 0xC0) * 64 + (b1 - 0x80), r)
        else none
      | [] => none
    else if b0 < 0xF0 then
      match rest with
      | b1 :: b2 :: r =>
        if 0x80 ≤ b1 ∧ b1 < 0xC0 ∧ 0x80 ≤ b2 ∧ b2 < 0xC0 ∧
            0x800 ≤ (b0 - 0xE0) * 4096 + (b1 - 0x80) * 64 + (b2 - 0x80) ∧
            ((b0 - 0xE0) * 4096 + (b1 - 0x80) * 64 + (b2 - 0x80) < 0xD800 ∨
              0xDFFF < (b0 - 0xE0) * 4096 + (b1 - 0x80) * 64 + (b2 - 0x80)) then
          some ((b0 - 0xE0) * 4096 + (b1 - 0x80) * 64 + (b2 - 0x80), r)
        else none
      | _ => none
    else if b0 < 0xF8 then
      match rest with
      | b1 :: b2 :: b3 :: r =>
        if 0x80 ≤ b1 ∧ b1 < 0xC0 ∧ 0x80 ≤ b2 ∧ b2 < 0xC0 ∧ 0x80 ≤ b3 ∧ b3 < 0xC0 ∧
            0x10000 ≤ (b0 - 0xF0) * 262144 + (b1 - 0x80) * 4096 + (b2 - 0x80) * 64 + (b3 - 0x80) ∧
            (b0 - 0xF0) * 262144 + (b1 - 0x80) * 4096 + (b2 - 0x80) * 64 + (b3 - 0x80)
              < 0x110000 then
          some ((b0 - 0xF0) * 262144 + (b1 - 0x80) * 4096 + (b2 - 0x80) * 64 + (b3 - 0x80), r)
        else none
      | _ => none
    else none

/-- Strict UTF-8 decoding of a byte list into scalar values.
Fuel-based recursion: every decoded scalar consumes at least one byte,
so fuel equal to the byte count never runs out on an input the strict
decoder accepts — `utf8Chars` below instantiates it that way. -/
def utf8CharsAux : Nat → List Nat → Option (List Char)
  | _, [] => some []
  | 0, _ :: _ => none
  | fuel + 1, b0 :: rest =>
    match utf8DecodeOne (b0 :: rest) with
    | none => none
    | some (n, r) => (utf8CharsAux fuel r).map (fun cs => Char.ofNat n :: cs)

/-- Strict UTF-8 decoding of a byte list into scalar values. -/
def utf8Chars (l : List Nat) : Option (List Char) :=
  utf8CharsAux l.length l

/-- `String::from_utf8` : decode bytes, failing on invalid UTF-8. -/
def strFromBytes (l : List Nat) : Option String :=
  (utf8Chars l).map String.mk

/-! ## Little-endian machine integers -/

/-- The four little-endian bytes of `n as u32` (`u32::to_le_bytes`).
For `n ≥ 2^32` the digits coincide with those of `n % 2^32`, which is
exactly the Rust `as u32` cast. -/
def u32le (n : Nat) : List Nat :=
  [n % 256, n / 256 % 256, n / 65536 % 256, n / 16777216 % 256]

/-- The eight little-endian bytes of `n as u64`. -/
def u64le (n : Nat) : List Nat :=
  [n % 256, n / 256 % 256, n / 65536 % 256, n / 16777216 % 256,
   n / 4294967296 % 256, n / 1099511627776 % 256,
   n / 281474976710656 % 256, n / 72057594037927936 % 256]

/-- Recompose a little-endian byte list into a natural number
(`uNN::from_le_bytes`). -/
def leVal : List Nat → Nat
  | [] => 0
  | b :: t => b + 256 * leVal t

/-- `i32::to_le_bytes` : two's-complement little-endian bytes. -/
def i32le (v : Int) : List Nat := u32le (v % 4294967296).toNat

/-- `i64::to_le_bytes` : two's-complement little-endian bytes. -/
def i64le (v : Int) : List Nat := u64le (v % 18446744073709551616).toNat

/-- Interpret a `u32` bit pattern as an `i32` (`i32::from_le_bytes`). -/
def i32ofBits (n : Nat) : Int :=
  if n < 2147483648 then (n : Int) else (n : Int) - 4294967296

/-- Interpret a `u64` bit pattern as an `i64` (`i64::from_le_bytes`). -/
def i64ofBits (n : Nat) : Int :=
  if n < 9223372036854775808 then (n : Int) else (n : Int) - 18446744073709551616

/-! ## Reading from a byte buffer by index

`deserialize_key`/`deserialize_val` access the input through range
slices `bytes[idx..idx + n]`; a Rust slice whose range exceeds the
buffer's length panics, which the model records as `Res.panic`. -/

/-- `&bytes[idx..idx + n]`, panicking when out of range. -/
def readSlice (bytes : List Nat) (idx n : Nat) : Res (List Nat) :=
  if idx + n ≤ bytes.length then .ok ((bytes.drop idx).take n) else .panic

/-- `u32::from_le_bytes(bytes[idx..idx + 4].try_into()?)`. -/
def readU32 (bytes : List Nat) (idx : Nat) : Res Nat :=
  Res.bind (readSlice bytes idx 4) fun chunk => .ok (leVal chunk)

/-- `i32::from_le_bytes(bytes[idx..idx + 4].try_into()?)`. -/
def readI32 (bytes : List Nat) (idx : Nat) : Res Int :=
  Res.bind (readSlice bytes idx 4) fun chunk => .ok (i32ofBits (leVal chunk))

/-- `i64::from_le_bytes(bytes[idx..idx + 8].try_into()?)`. -/
def readI64 (bytes : List Nat) (idx : Nat) : Res Int :=
  Res.bind (readSlice bytes idx 8) fun chunk => .ok (i64ofBits (leVal chunk))

/-! ## The entity-key codec (`src/core/src/key_serialization.rs`)

Value-type tags follow the Feast `feast.types.value_type.Enum` protobuf
numbering (the `.proto` files are compiled by the build script and are
not part of `src/`); the numbering is pinned by the repository's own
`test_serialize_key` expected hex string, which contains tag `2` for
string and tag `4` for int64. -/

def invalidTag : Nat := 0
def bytesTag : Nat := 1
def stringTag : Nat := 2
def int32Tag : Nat := 3
def int64Tag : Nat := 4
def bytesListTag : Nat := 11

/-- The discriminants accepted by prost's `Enum::try_from` (the values
declared in the Feast `value_type` enum). -/
def validTagInts : List Int := [0, 1, 2, 3, 4, 5, 6, 7, 8, 11, 12, 13, 14, 15, 16, 17, 18, 19]

/-- The `feast.types.Value` oneof: the variants the codec and the
response pipeline manipulate. The float/double/list/null variants,
which no claim touches, are represented by `boolVal` standing in for
"some variant the codec does not support". -/
inductive Val where
  | int32Val (i : Int)
  | int64Val (i : Int)
  | stringVal (s : String)
  | bytesVal (b : List Nat)
  | boolVal (b : Bool)
  deriving DecidableEq, Repr

/-- `feast.types.Value` : an optional `Val`. -/
structure Value where
  val : Option Val
  deriving DecidableEq, Repr

/-- `feast.types.EntityKey` : parallel join-key names and values. -/
structure EntityKey where
  join_keys : List String
  entity_values : List Value
  deriving DecidableEq, Repr

inductive EntityKeySerializationVersion where
  | v1
  | v2
  | v3
  deriving DecidableEq, Repr

/-- `serialize_value` : tag ++ length ++ payload for the supported
variants, `Err` otherwise. -/
def serialize_value (value : Value) : Res (List Nat) :=
  match value.val with
  | none => Res.fail .missingValue
  | some (.int32Val v) => .ok (u32le int32Tag ++ u32le 4 ++ i32le v)
  | some (.int64Val v) => .ok (u32le int64Tag ++ u32le 8 ++ i64le v)
  | some (.stringVal v) => .ok (u32le stringTag ++ u32le (strBytes v).length ++ strBytes v)
  | some (.bytesVal v) => .ok (u32le bytesTag ++ u32le v.length ++ v)
  | some (.boolVal _) => Res.fail .unsupportedType

/-- First-match association lookup (`HashMap::get` on the map built
below, where later inserts win: the map is looked up on the reversed
pair list). -/
def assocLookup : List (String × Value) → String → Option Value
  | [], _ => none
  | (k, v) :: t, key => if k = key then some v else assocLookup t key

/-- The distinct keys of the pair list, in first-occurrence order (the
key set of the `HashMap` built from it; its iteration order is
irrelevant because `serialize_key` sorts the keys). -/
def dedupAux (seen : List String) : List String → List String
  | [] => []
  | k :: t => if k ∈ seen then dedupAux seen t else k :: dedupAux (k :: seen) t

def dedupKeys (l : List String) : List String := dedupAux [] l

/-- Rust's `str` ordering is lexicographic on the UTF-8 bytes. -/
def bytesLe : List Nat → List Nat → Bool
  | [], _ => true
  | _ :: _, [] => false
  | a :: x, b :: y => if a < b then true else if b < a then false else bytesLe x y

def strLe (a b : String) : Bool := bytesLe (strBytes a) (strBytes b)

/-- Insertion sort (used to model `Vec::sort` on the key names; the
source's stable sort applied to distinct keys produces the same list as
any sort, and the round-trip proofs only use that sorting permutes). -/
def insertSorted (x : String) : List String → List String
  | [] => [x]
  | y :: t => if strLe x y then x :: y :: t else y :: insertSorted x t

def sortStrings : List String → List String
  | [] => []
  | x :: t => insertSorted x (sortStrings t)

/-- One name record of the serialized key:
`STRING tag ++ byte length ++ UTF-8 bytes`. -/
def nameRecord (k : String) : List Nat :=
  u32le stringTag ++ u32le (strBytes k).length ++ strBytes k

/-- The value section: for each sorted key, look the value up in the
map and append its `serialize_value` record (`?` propagates errors). -/
def valueRecords (lookupV : String → Option Value) : List String → Res (List Nat)
  | [] => .ok []
  | k :: ks =>
    match lookupV k with
    | none => Res.fail .keyNotFoundInMap
    | some v =>
      Res.bind (serialize_value v) fun b =>
      Res.bind (valueRecords lookupV ks) fun rest => .ok (b ++ rest)

/-- `serialize_key` : V3 layout `count ++ sorted name records ++ value
records in the same sorted order`. The `HashMap<&str, &Value>` built by
zipping names with values is modelled by `assocLookup` on the reversed
zip (later duplicate names overwrite earlier ones) with `dedupKeys`
giving its key set. -/
def serialize_key (entity_key : EntityKey) (version : EntityKeySerializationVersion) :
    Res (List Nat) :=
  if version ≠ .v3 then Res.fail .unsupportedVersion else
  let pairs := entity_key.join_keys.zip entity_key.entity_values
  let lookupV : String → Option Value := assocLookup pairs.reverse
  let sorted := sortStrings (dedupKeys (pairs.map Prod.fst))
  Res.bind (valueRecords lookupV sorted) fun valblock =>
  .ok (u32le sorted.length ++ sorted.flatMap nameRecord ++ valblock)

/-- `deserialize_val` : read tag, decode through `Enum::try_from`,
then the per-variant length and payload; returns the value and the
index just past it. -/
def deserialize_val (bytes : List Nat) (idx : Nat) : Res (Val × Nat) :=
  Res.bind (readI32 bytes idx) fun value_type_int =>
  if value_type_int ∉ validTagInts then Res.fail (.invalidEnumValue value_type_int) else
  if value_type_int = (int32Tag : Int) then
    Res.bind (readU32 bytes (idx + 4)) fun size =>
    if size ≠ 4 then Res.fail .incorrectSizeInt32 else
    Res.bind (readI32 bytes (idx + 8)) fun v => .ok (.int32Val v, idx + 12)
  else if value_type_int = (int64Tag : Int) then
    Res.bind (readU32 bytes (idx + 4)) fun size =>
    if size ≠ 8 then Res.fail .incorrectSizeInt64 else
    Res.bind (readI64 bytes (idx + 8)) fun v => .ok (.int64Val v, idx + 16)
  else if value_type_int = (stringTag : Int) then
    Res.bind (readU32 bytes (idx + 4)) fun size =>
    Res.bind (readSlice bytes (idx + 8) size) fun chunk =>
    match strFromBytes chunk with
    | none => Res.fail .invalidUtf8
    | some s => .ok (.stringVal s, idx + 8 + size)
  else if value_type_int = (bytesListTag : Int) then
    Res.bind (readU32 bytes (idx + 4)) fun size =>
    Res.bind (readSlice bytes (idx + 8) size) fun chunk => .ok (.bytesVal chunk, idx + 8 + size)
  else Res.fail (.unsupportedSerializedType value_type_int)

/-- The name-reading loop of `deserialize_key` : `count` records of
`(tag, len, name)`, checking the tag is the string tag. -/
def readNames (bytes : List Nat) : Nat → Nat → Res (List String × Nat)
  | idx, 0 => .ok ([], idx)
  | idx, count + 1 =>
    Res.bind (readU32 bytes idx) fun string_type =>
    if string_type ≠ stringTag then Res.fail .incorrectKeyType else
    Res.bind (readU32 bytes (idx + 4)) fun key_len =>
    Res.bind (readSlice bytes (idx + 8) key_len) fun chunk =>
    match strFromBytes chunk with
    | none => Res.fail .invalidUtf8
    | some name =>
      Res.bind (readNames bytes (idx + 8 + key_len) count) fun r => .ok (name :: r.1, r.2)

/-- The value-reading loop of `deserialize_key` : `count` calls to
`deserialize_val`, each wrapped into `Value { val: Some(..) }`. -/
def readValues (bytes : List Nat) : Nat → Nat → Res (List Value × Nat)
  | idx, 0 => .ok ([], idx)
  | idx, count + 1 =>
    Res.bind (deserialize_val bytes idx) fun v =>
    Res.bind (readValues bytes v.2 count) fun r => .ok (Value.mk (some v.1) :: r.1, r.2)

/-- `deserialize_key` : count, then names, then values. -/
def deserialize_key (bytes : List Nat) (version : EntityKeySerializationVersion) :
    Res EntityKey :=
  if version ≠ .v3 then Res.fail .unsupportedVersion else
  Res.bind (readU32 bytes 0) fun key_len =>
  Res.bind (readNames bytes 4 key_len) fun names =>
  Res.bind (readValues bytes names.2 key_len) fun values =>
  .ok ⟨names.1, values.1⟩

/-! ### Round-trip support lemmas -/

/-- The `Val` variants for which serialisation and deserialisation
invert each other: in-range ints and strings (the `bytes` variant
serialises under the `BYTES` tag but the deserialiser only accepts
`BYTES_LIST`, see the C1 counterexample). -/
def SupVal : Val → Prop
  | .int32Val i => -2147483648 ≤ i ∧ i < 2147483648
  | .int64Val i => -9223372036854775808 ≤ i ∧ i < 9223372036854775808
  | .stringVal s => (strBytes s).length < 4294967296
  | .bytesVal _ => False
  | .boolVal _ => False

/-! ## The value model (`src/feast-server-core/src/model.rs`) -/

/-- The declared column type (`feast.types.value_type.Enum`) as used by
the planner's coercions; variants other than the three coercible ones
are collapsed into `other` (every one of them takes the same
`Unsupported type conversion` branch). -/
inductive ValueTypeEnum where
  | int32
  | int64
  | string
  | other
  deriving DecidableEq, Repr

/-- `EntityIdValue` : the user-supplied entity identifier. -/
inductive EntityIdValue where
  | string (s : String)
  | int (i : Int)
  deriving DecidableEq, Repr

/-- `*i as i32` : wrap an `i64` into `i32` range (two's complement). -/
def i64_as_i32 (i : Int) : Int := i32ofBits (i % 4294967296).toNat

/-- `EntityIdValue::to_proto_value` : coerce to a typed `Value`
according to the declared column type. -/
def to_proto_value (v : EntityIdValue) (output_type : ValueTypeEnum) : Res Value :=
  match v with
  | .string s => .ok ⟨some (.stringVal s)⟩
  | .int i =>
    match output_type with
    | .int32 => .ok ⟨some (.int32Val (i64_as_i32 i))⟩
    | .int64 => .ok ⟨some (.int64Val i)⟩
    | .string => .ok ⟨some (.stringVal (toString i))⟩
    | .other => Res.fail .unsupportedNumberCoercion

inductive FeatureStatus where
  | invalid
  | present
  | nullValue
  | notFound
  | outsideMaxAge
  deriving DecidableEq, Repr

structure Field where
  name : String
  value_type : ValueTypeEnum
  deriving DecidableEq, Repr

/-- `HashMap<String, String>` (the join-key alias map) as an
association list with `get` semantics. -/
def lookupStr : List (String × String) → String → Option String
  | [], _ => none
  | (k, v) :: t, key => if k = key then some v else lookupStr t key

/-- `FeatureView` : `ttl` is a `chrono::Duration`, modelled as integer
time units (zero when the proto carries no TTL). -/
structure FeatureView where
  name : String
  features : List Field
  ttl : Int
  entity_names : List String
  entity_columns : List Field
  join_key_map : Option (List (String × String))
  deriving DecidableEq, Repr

def DUMMY_ENTITY_ID : String := "__dummy_id"
def DUMMY_ENTITY_NAME : String := "__dummy"
def DUMMY_ENTITY_VAL : String := ""

/-- `FeatureView::is_entity_less` : exactly one entity name, the
`__dummy` sentinel. -/
def FeatureView.is_entity_less (v : FeatureView) : Bool :=
  match v.entity_names with
  | [n] => n = DUMMY_ENTITY_NAME
  | _ => false

/-- Request-level `(feature-view-name, feature-name)` pair. -/
structure Feature where
  feature_view_name : String
  feature_name : String
  deriving DecidableEq, Repr

inductive FeatureType where
  | plain
  | entityLess
  deriving DecidableEq, Repr

/-- A row returned by an online store (`OnlineStoreRow`); the
`HashEntityKey` wrapper adds only hashing, so the model uses the key
directly. Timestamps are integers. -/
structure OnlineStoreRow where
  feature_view_name : String
  entity_key : EntityKey
  feature_name : String
  value : Value
  event_ts : Int
  created_ts : Option Int
  deriving DecidableEq, Repr

/-- One response column (`FeatureResults`); `ValueWrapper` adds only
serialisation, so cells are plain `Value`s. -/
structure FeatureResults where
  values : List Value
  statuses : List FeatureStatus
  event_timestamps : List Int
  deriving DecidableEq, Repr

/-- `GetOnlineFeatureResponse` with `metadata.feature_names`
flattened into `feature_names`. -/
structure GetOnlineFeatureResponse where
  feature_names : List String
  results : List FeatureResults
  deriving DecidableEq, Repr

/-- `DateTime::<Utc>::UNIX_EPOCH` (the `round_subsecs(0)` calls do not
change it). -/
def epoch : Int := 0

/-! ## The request planner
(`src/feast-server-core/src/feature_store/feature_store_impl.rs`)

`feature_to_view` is `HashMap<Arc<Feature>, FeatureView>`; the code
iterates it, so the model takes the iteration order as a list (Rust's
order is arbitrary, so properties about it quantify over the order).
The request's entity map is an association list looked up by name. -/

structure EntityColumnRef where
  view_name : String
  column_name : String
  deriving DecidableEq, Repr

/-- `build_lookup_key_mapping` : for each non-entity-less view and each
of its entity columns, map `(view, column)` to the alias when the view
has one naming an entity present in the request, else to the column's
own name. Insertions are modelled by function update (later entries
overwrite earlier ones, as `HashMap::insert` does). -/
def build_lookup_key_mapping (feature_to_view : List (Feature × FeatureView))
    (entities_from_request : List String) : EntityColumnRef → Option String :=
  feature_to_view.foldl
    (fun mapping fv =>
      let view := fv.2
      if view.is_entity_less then mapping
      else
        view.entity_columns.foldl
          (fun mapping col =>
            let lookup_name :=
              match view.join_key_map with
              | some m =>
                match lookupStr m col.name with
                | some al => if entities_from_request.contains al then al else col.name
                | none => col.name
              | none => col.name
            fun key =>
              if key = ⟨view.name, col.name⟩ then some lookup_name else mapping key)
          mapping)
    (fun _ => none)

structure FeatureWithKeys where
  feature : Feature
  feature_type : FeatureType
  entity_keys : List EntityKey
  deriving DecidableEq, Repr

def entity_key_for_entity_less_feature : List EntityKey :=
  [⟨[DUMMY_ENTITY_ID], [⟨some (.stringVal DUMMY_ENTITY_VAL)⟩]⟩]

structure LookupKey where
  origin_col_name : String
  lookup : String
  value_type : ValueTypeEnum
  deriving DecidableEq, Repr

/-- `requested_entity_keys` lookup (`HashMap<String, Vec<EntityIdValue>>`). -/
def lookupVals : List (String × List EntityIdValue) → String → Option (List EntityIdValue)
  | [], _ => none
  | (k, v) :: t, key => if k = key then some v else lookupVals t key

/-- The per-column `LookupKey` extraction (the `map/ok_or_else/collect`
over `view.entity_columns`). -/
def build_lookup_keys (view : FeatureView) (lookup_mapping : EntityColumnRef → Option String) :
    List Field → Res (List LookupKey)
  | [] => .ok []
  | col :: rest =>
    match lookup_mapping ⟨view.name, col.name⟩ with
    | none => Res.fail (.missingEntityColumnMapping col.name view.name)
    | some lk =>
      Res.bind (build_lookup_keys view lookup_mapping rest) fun r =>
      .ok (⟨col.name, lk, col.value_type⟩ :: r)

/-- The `for lookup_key in &lookup_keys { if !requested.contains_key(..) }`
check, erroring on the first lookup name absent from the request. -/
def check_requested (requested : List (String × List EntityIdValue)) (feature : Feature) :
    List LookupKey → Res Unit
  | [] => .ok ()
  | lk :: rest =>
    if (lookupVals requested lk.lookup).isNone then
      Res.fail (.missingEntityKey lk.lookup feature.feature_name)
    else check_requested requested feature rest

/-- One zipped entity key's value list: `values[i]` indexes the
column's request vector and panics when `i` is out of range (the
source performs no length check across columns). -/
def build_entity_values (requested : List (String × List EntityIdValue)) (i : Nat) :
    List LookupKey → Res (List Value)
  | [] => .ok []
  | lk :: rest =>
    match lookupVals requested lk.lookup with
    | none => .panic
    | some vs =>
      match vs.get? i with
      | none => .panic
      | some v =>
        Res.bind (to_proto_value v lk.value_type) fun pv =>
        Res.bind (build_entity_values requested i rest) fun r => .ok (pv :: r)

/-- The `for i in 0..num_entities` loop building the shared key vector:
`go i m` builds keys for positions `i, i+1, …, i+m-1`. -/
def build_keys_vec (requested : List (String × List EntityIdValue)) (lks : List LookupKey) :
    Nat → Nat → Res (List EntityKey)
  | _, 0 => .ok []
  | i, m + 1 =>
    Res.bind (build_entity_values requested i lks) fun vals =>
    Res.bind (build_keys_vec requested lks (i + 1) m) fun rest =>
    .ok (⟨lks.map (fun lk => lk.origin_col_name), vals⟩ :: rest)

/-- Cache lookup (`HashMap<String, Arc<Vec<Arc<EntityKey>>>>`). -/
def lookupStrKeys : List (String × List EntityKey) → String → Option (List EntityKey)
  | [], _ => none
  | (k, v) :: t, key => if k = key then some v else lookupStrKeys t key

/-- `feature_views_to_keys` with its key-vector cache: the cache key is
the comma-joined list of *origin* column names (not the lookup names),
and a hit reuses the previously built vector. -/
def feature_views_to_keys_aux (requested : List (String × List EntityIdValue))
    (lookup_mapping : EntityColumnRef → Option String) :
    List (Feature × FeatureView) → List (String × List EntityKey) →
    Res (List FeatureWithKeys)
  | [], _ => .ok []
  | (feature, view) :: rest, cache =>
    if view.is_entity_less then
      Res.bind (feature_views_to_keys_aux requested lookup_mapping rest cache) fun r =>
      .ok (⟨feature, .entityLess, entity_key_for_entity_less_feature⟩ :: r)
    else
      Res.bind (build_lookup_keys view lookup_mapping view.entity_columns) fun lookup_keys =>
      if lookup_keys.isEmpty then Res.fail (.noEntityColumns view.name) else
      Res.bind (check_requested requested feature lookup_keys) fun _ =>
      let cache_key := String.intercalate "," (lookup_keys.map (fun lk => lk.origin_col_name))
      match lookupStrKeys cache cache_key with
      | some entity_keys =>
        Res.bind (feature_views_to_keys_aux requested lookup_mapping rest cache) fun r =>
        .ok (⟨feature, .plain, entity_keys⟩ :: r)
      | none =>
        match lookup_keys with
        | [] => .panic
        | first :: _ =>
          match lookupVals requested first.lookup with
          | none => .panic
          | some first_vals =>
            Res.bind (build_keys_vec requested lookup_keys 0 first_vals.length)
              fun entity_keys =>
            Res.bind (feature_views_to_keys_aux requested lookup_mapping rest
              ((cache_key, entity_keys) :: cache)) fun r =>
            .ok (⟨feature, .plain, entity_keys⟩ :: r)

def feature_views_to_keys (feature_to_view : List (Feature × FeatureView))
    (requested_entity_keys : List (String × List EntityIdValue))
    (lookup_mapping : EntityColumnRef → Option String) : Res (List FeatureWithKeys) :=
  feature_views_to_keys_aux requested_entity_keys lookup_mapping feature_to_view []

/-! ## The response builder
(`src/feast-server-core/src/feature_store/response_builder.rs`) -/

/-- `get_feature_status`.  The `checked_add_signed` computing
`event_ts + ttl` is total over the claim-relevant range (see the file
header); its overflow branch (`None → Present`) is unreachable there. -/
def get_feature_status (now : Int) (value : Value) (feature_view : Option FeatureView)
    (event_ts : Int) : FeatureStatus :=
  if value.val.isNone then .nullValue
  else
    match feature_view with
    | some fv =>
      let expiration_time := event_ts + fv.ttl
      if now > expiration_time then .outsideMaxAge else .present
    | none => .present

/-- `val_to_entity_id_value`. -/
def val_to_entity_id_value (v : Val) : Res EntityIdValue :=
  match v with
  | .int32Val i => .ok (.int i)
  | .int64Val i => .ok (.int i)
  | .stringVal s => .ok (.string s)
  | _ => Res.fail .unsupportedEntityValueType

structure RequestEntityIdKey where
  name : String
  value : EntityIdValue
  deriving DecidableEq, Repr

structure ResponseFeatureRow where
  feature : Feature
  value : Value
  status : FeatureStatus
  event_ts : Int
  deriving DecidableEq, Repr

def entity_less_request_entity_key : RequestEntityIdKey :=
  ⟨DUMMY_ENTITY_ID, .string DUMMY_ENTITY_VAL⟩

/-- The per-row body of the `group_rows` loop: validate the decoded
entity key (exactly one join key and one value), translate the join
key through the lookup mapping (`.expect`, i.e. panic, when absent),
convert the entity value, compute the status, and return the
`(request entity id, response row)` pair to append. -/
def row_group_entry (now : Int) (feature_views : String → Option FeatureView)
    (lookup_mapping : EntityColumnRef → Option String) (row : OnlineStoreRow) :
    Res (RequestEntityIdKey × ResponseFeatureRow) :=
  if row.entity_key.join_keys.length ≠ 1 ∨ row.entity_key.entity_values.length ≠ 1 then
    Res.fail .invalidEntityKeyRow
  else
    match row.entity_key.join_keys.head? with
    | none => .panic
    | some entity_key_name =>
      match lookup_mapping ⟨row.feature_view_name, entity_key_name⟩ with
      | none => .panic
      | some lookup_key =>
        match row.entity_key.entity_values.head? with
        | none => .panic
        | some v0 =>
          match v0.val with
          | none => Res.fail .emptyEntityIdValue
          | some u =>
            Res.bind (val_to_entity_id_value u) fun entity_id_value =>
            let status := get_feature_status now row.value
              (feature_views row.feature_view_name) row.event_ts
            .ok (⟨lookup_key, entity_id_value⟩,
              ⟨⟨row.feature_view_name, row.feature_name⟩, row.value, status, row.event_ts⟩)

/-- `group_rows` : fold the store rows into a map from request entity
id to the response rows for it (`HashMap<RequestEntityIdKey, Vec<..>>`
as a function; `entry(..).or_default().push(..)` appends). -/
def group_rows_aux (now : Int) (feature_views : String → Option FeatureView)
    (lookup_mapping : EntityColumnRef → Option String) :
    List OnlineStoreRow → (RequestEntityIdKey → List ResponseFeatureRow) →
    Res (RequestEntityIdKey → List ResponseFeatureRow)
  | [], m => .ok m
  | row :: rest, m =>
    Res.bind (row_group_entry now feature_views lookup_mapping row) fun e =>
    group_rows_aux now feature_views lookup_mapping rest
      (fun k => if k = e.1 then m e.1 ++ [e.2] else m k)

def group_rows (now : Int) (rows : List OnlineStoreRow)
    (feature_views : String → Option FeatureView)
    (lookup_mapping : EntityColumnRef → Option String) :
    Res (RequestEntityIdKey → List ResponseFeatureRow) :=
  group_rows_aux now feature_views lookup_mapping rows (fun _ => [])

/-- `GetOnlineFeatureResponseBuilder`. -/
structure Builder where
  full_feature_names : Bool
  num_features : Nat
  num_values : Nat
  next_feature_idx : Nat
  feature_to_idx : List (Feature × Nat)
  current_entity_idx : Nat
  current_feature_value_idx : Nat
  features : List String
  results : List FeatureResults

def lookupFeatureIdx : List (Feature × Nat) → Feature → Option Nat
  | [], _ => none
  | (f, i) :: t, key => if f = key then some i else lookupFeatureIdx t key

def with_capacity (num_features num_values : Nat) : Builder :=
  ⟨false, num_features, num_values, 1, [], 0, 0, [], []⟩

def set_full_feature_names (b : Builder) (flag : Bool) : Builder :=
  { b with full_feature_names := flag }

def with_entity_key_name (b : Builder) (entity_key_name : String) : Builder :=
  if b.features.length ≤ b.current_entity_idx then
    { b with features := b.features ++ [entity_key_name] }
  else
    { b with features := b.features.set b.current_entity_idx entity_key_name }

def next_feature_value_idx (b : Builder) : Builder :=
  { b with current_feature_value_idx := b.current_feature_value_idx + 1 }

/-- `self.results[idx].{values, statuses, event_timestamps}.push(..)` :
panics when `idx` is out of bounds. -/
def pushCell (rs : List FeatureResults) (idx : Nat) (v : Value) (st : FeatureStatus)
    (ts : Int) : Res (List FeatureResults) :=
  match rs.get? idx with
  | none => .panic
  | some fr =>
    .ok (rs.set idx ⟨fr.values ++ [v], fr.statuses ++ [st], fr.event_timestamps ++ [ts]⟩)

def add_entity_value (b : Builder) (entity_id_value : EntityIdValue) : Res Builder :=
  let value : Value :=
    match entity_id_value with
    | .int i => ⟨some (.int64Val i)⟩
    | .string s => ⟨some (.stringVal s)⟩
  let b :=
    if b.results.length ≤ b.current_entity_idx then
      { b with results := b.results ++ [⟨[], [], []⟩] }
    else b
  Res.bind (pushCell b.results b.current_entity_idx value .present epoch) fun rs =>
  .ok { b with results := rs }

def add_feature_value (b : Builder) (feature : Feature) (value : Value)
    (status : FeatureStatus) (event_ts : Int) : Res Builder :=
  let p : Nat × Builder :=
    match lookupFeatureIdx b.feature_to_idx feature with
    | some idx => (idx, b)
    | none =>
      (b.next_feature_idx,
        { b with
          next_feature_idx := b.next_feature_idx + 1
          feature_to_idx := (feature, b.next_feature_idx) :: b.feature_to_idx })
  let feature_idx := p.1
  let b := p.2
  let b :=
    if b.results.length ≤ feature_idx then
      let feature_name :=
        if b.full_feature_names then
          feature.feature_view_name ++ "." ++ feature.feature_name
        else feature.feature_name
      { b with
        results := b.results ++ [⟨[], [], []⟩]
        features := b.features ++ [feature_name] }
    else b
  Res.bind (pushCell b.results feature_idx value status event_ts) fun rs =>
  .ok { b with results := rs }

/-- The `while results.values.len() <= current_feature_value_idx` pad:
appends `(null, NotFound, epoch)` cells until the column's *values*
length exceeds the index. -/
def padTo (fr : FeatureResults) (idx : Nat) : FeatureResults :=
  let missing := idx + 1 - fr.values.length
  ⟨fr.values ++ List.replicate missing ⟨none⟩,
   fr.statuses ++ List.replicate missing .notFound,
   fr.event_timestamps ++ List.replicate missing epoch⟩

def add_missing_keys (b : Builder) : Builder :=
  { b with results := b.results.map (fun fr => padTo fr b.current_feature_value_idx) }

def add_missing_features (b : Builder) (features : List Feature) : Builder :=
  features.foldl
    (fun b feature =>
      let feature_name :=
        if b.full_feature_names then
          feature.feature_view_name ++ "__" ++ feature.feature_name
        else feature.feature_name
      { b with
        features := b.features ++ [feature_name]
        results := b.results ++
          [⟨List.replicate b.num_values ⟨none⟩,
            List.replicate b.num_values .notFound,
            List.replicate b.num_values epoch⟩]
        next_feature_idx := b.next_feature_idx + 1 })
    b

def add_entity_less_features (b : Builder) (rows : List ResponseFeatureRow) : Builder :=
  if rows.isEmpty then b
  else
    rows.foldl
      (fun b row =>
        let feature_name :=
          if b.full_feature_names then
            row.feature.feature_view_name ++ "__" ++ row.feature.feature_name
          else row.feature.feature_name
        { b with
          features := b.features ++ [feature_name]
          results := b.results ++
            [⟨List.replicate b.num_values row.value,
              List.replicate b.num_values row.status,
              List.replicate b.num_values row.event_ts⟩]
          next_feature_idx := b.next_feature_idx + 1 })
      b

def next_entity (b : Builder) : Builder :=
  { b with
    current_entity_idx := b.next_feature_idx
    next_feature_idx := b.next_feature_idx + 1
    current_feature_value_idx := 0 }

def Builder.build (b : Builder) : GetOnlineFeatureResponse :=
  ⟨b.features, b.results⟩

/-- The rows of one request position: remove each from the pending
feature set and place it (`feature_set.remove`, `add_feature_value`). -/
def process_rows (b : Builder) (fs : List Feature) :
    List ResponseFeatureRow → Res (Builder × List Feature)
  | [] => .ok (b, fs)
  | r :: rest =>
    Res.bind (add_feature_value (b) r.feature r.value r.status r.event_ts) fun b2 =>
    process_rows b2 (fs.erase r.feature) rest

/-- The `for key in keys` loop of `try_from` : take the group's rows
out of the map (`HashMap::remove`), place the entity value and the
rows, then pad and advance. -/
def process_keys (name : String) :
    List EntityIdValue → Builder → (RequestEntityIdKey → List ResponseFeatureRow) →
    List Feature → Res (Builder × (RequestEntityIdKey → List ResponseFeatureRow) × List Feature)
  | [], b, g, fs => .ok (b, g, fs)
  | key :: rest, b, g, fs =>
    let rk : RequestEntityIdKey := ⟨name, key⟩
    let feature_values := g rk
    let g2 := fun k => if k = rk then [] else g k
    Res.bind (add_entity_value b key) fun b1 =>
    Res.bind (process_rows b1 fs feature_values) fun r =>
    process_keys name rest (next_feature_value_idx (add_missing_keys r.1)) g2 r.2

/-- The `for (entity_key_name, keys) in entity_keys` loop; the
`HashMap` iteration order is the list order. -/
def process_entities :
    List (String × List EntityIdValue) → Builder →
    (RequestEntityIdKey → List ResponseFeatureRow) → List Feature →
    Res (Builder × (RequestEntityIdKey → List ResponseFeatureRow) × List Feature)
  | [], b, g, fs => .ok (b, g, fs)
  | (name, keys) :: rest, b, g, fs =>
    Res.bind (process_keys name keys (with_entity_key_name b name) g fs) fun r =>
    process_entities rest (next_entity r.1) r.2.1 r.2.2

/-- `.max().unwrap_or(0)` over the request's entity vector lengths. -/
def maxLen (entity_keys : List (String × List EntityIdValue)) : Nat :=
  (entity_keys.map (fun p => p.2.length)).foldr max 0

/-- `GetOnlineFeatureResponse::try_from` : group the rows, walk the
request's entity vectors, then append entity-less and fully-missing
feature columns. The remaining `HashSet<Feature>` iteration is the
list's order. -/
def try_from (entity_keys : List (String × List EntityIdValue))
    (rows : List OnlineStoreRow) (feature_views : String → Option FeatureView)
    (lookup_mapping : EntityColumnRef → Option String) (feature_set : List Feature)
    (full_feature_names : Bool) (now : Int) : Res GetOnlineFeatureResponse :=
  Res.bind (group_rows now rows feature_views lookup_mapping) fun grouped =>
  let result_capacity := maxLen entity_keys
  let b := set_full_feature_names
    (with_capacity (entity_keys.length + feature_set.length) result_capacity)
    full_feature_names
  Res.bind (process_entities entity_keys b grouped feature_set) fun r =>
  let el_rows := r.2.1 entity_less_request_entity_key
  let fs2 := el_rows.foldl (fun fs row => fs.erase row.feature) r.2.2
  .ok (Builder.build (add_missing_features (add_entity_less_features r.1 el_rows) fs2))

/-! ## The registry resolution of requested features
(`src/feast-server-core/src/model.rs`,
`src/feast-server-core/src/registry/file_registry.rs`) -/

structure GetOnlineFeaturesRequest where
  entities : List (String × List EntityIdValue)
  feature_service : Option String
  features : Option (List String)
  full_feature_names : Option Bool
  deriving Repr

inductive RequestedFeatures where
  | featureNames (names : List String)
  | featureService (name : String)
  deriving DecidableEq, Repr

/-- `From<&GetOnlineFeaturesRequest> for RequestedFeatures`. -/
def requested_features_from (r : GetOnlineFeaturesRequest) : RequestedFeatures :=
  match r.feature_service with
  | some s => .featureService s
  | none =>
    match r.features with
    | some fs => .featureNames fs
    | none => .featureNames []

/-- Split a char list at the first `:` (Rust `s.find(':')` +
`split_at`). -/
def splitColon : List Char → Option (List Char × List Char)
  | [] => none
  | c :: t =>
    if c = ':' then some ([], t)
    else (splitColon t).map (fun p => (c :: p.1, p.2))

/-- `TryFrom<&str> for Feature` : `<view>:<feature>`, a bare name
becoming an entity feature with an empty view name, an empty string an
error. -/
def feature_try_from (s : String) : Res Feature :=
  if s.data.isEmpty then Res.fail .emptyFeatureString
  else
    match splitColon s.data with
    | some p => .ok ⟨String.mk p.1, String.mk p.2⟩
    | none => .ok ⟨"", s⟩

/-- The registry lookup surface `feature_views_from_names` uses:
feature views and the on-demand view name set. -/
structure FeatureRegistryModel where
  feature_views : String → Option FeatureView
  on_demand_feature_views : String → Bool

/-- `feature_views_from_names`. -/
def feature_views_from_names (reg : FeatureRegistryModel) :
    List Feature → Res (List (Feature × FeatureView))
  | [] => .ok []
  | f :: rest =>
    if reg.on_demand_feature_views f.feature_view_name then
      Res.fail .onDemandNotSupported
    else
      match reg.feature_views f.feature_view_name with
      | none => Res.fail (.featureViewNotFound f.feature_view_name)
      | some v =>
        Res.bind (feature_views_from_names reg rest) fun r => .ok ((f, v) :: r)

/-- The `FeatureNames` arm of `get_feature_views` : parse every
requested string, collect the parse failures, fail if any, else
resolve the parsed features. (The `FeatureService` arm resolves
through the service catalog and is not needed by any claim.) -/
def get_feature_views_names (reg : FeatureRegistryModel) (names : List String) :
    Res (List (Feature × FeatureView)) :=
  let parsed := names.map feature_try_from
  let bad_requests := parsed.filter (fun r => match r with | .ok _ => false | _ => true)
  let parsed_requested_features :=
    parsed.filterMap (fun r => match r with | .ok f => some f | _ => none)
  if ¬ bad_requests.isEmpty then Res.fail .badRequestedFeatures
  else feature_views_from_names reg parsed_requested_features

/-! ## The online-store adapters
(`src/feast-server-core/src/onlinestore/redis.rs`,
`src/feast-server-core/src/onlinestore/sqlite_onlinestore.rs`)

The adapters' row production is modelled against already-decoded
backend contents: protobuf decode failures of stored bytes abort the
whole call in the source and are orthogonal to the claims. The Redis
hash for one entity key is `valueOf` (per `(view, feature)` field,
`none` when the field or the key is absent) and `tsOf` (per-view
`_ts:{view}` field). -/

inductive RedisRequest where
  | featureRow (feature_view_name : String) (feature_name : String)
  | timestampRow (feature_view_name : String)
  deriving DecidableEq, Repr

/-- The per-key request assembly: a `_ts:{view}` field the first time a
view is seen, then the feature's hashed field. -/
def redis_requests : List Feature → List String → List RedisRequest
  | [], _ => []
  | f :: rest, seen_views =>
    if f.feature_view_name ∈ seen_views then
      .featureRow f.feature_view_name f.feature_name :: redis_requests rest seen_views
    else
      .timestampRow f.feature_view_name ::
        .featureRow f.feature_view_name f.feature_name ::
        redis_requests rest (f.feature_view_name :: seen_views)

/-- The response loop over the zipped `(request, value)` pairs:
timestamp rows populate `timestamp_map`; every feature-row request
emits an `OnlineStoreRow`, with `Value::default()` (a null value) when
the hash field was absent and the view's timestamp (or the epoch) as
`event_ts`. -/
def redis_rows_loop (key : EntityKey) (valueOf : String → String → Option Value)
    (tsOf : String → Option Int) :
    List RedisRequest → (String → Option (Option Int)) → List OnlineStoreRow
  | [], _ => []
  | .timestampRow view :: rest, tsm =>
    redis_rows_loop key valueOf tsOf rest
      (fun v => if v = view then some (tsOf view) else tsm v)
  | .featureRow view fname :: rest, tsm =>
    let ts := ((tsm view).join).getD epoch
    let value := (valueOf view fname).getD ⟨none⟩
    ⟨view, key, fname, value, ts, none⟩ :: redis_rows_loop key valueOf tsOf rest tsm

/-- The rows the Redis adapter produces for one entity key of the
batch. -/
def redis_rows_for_key (key : EntityKey) (feats : List Feature)
    (valueOf : String → String → Option Value) (tsOf : String → Option Int) :
    List OnlineStoreRow :=
  redis_rows_loop key valueOf tsOf (redis_requests feats []) (fun _ => none)

/-- A row of the sqlite table `{project}_{view}` with the stored value
already protobuf-decoded. -/
structure SqliteStoreRow where
  entity_key : List Nat
  feature_name : String
  value : Value
  event_ts : Int
  created_ts : Int
  deriving DecidableEq, Repr

/-- `SqliteStoreRow::try_into_online_store_row` (the value decode step
is pre-applied, the entity key goes through the real `deserialize_key`). -/
def try_into_online_store_row (r : SqliteStoreRow) (feature_view_name : String) :
    Res OnlineStoreRow :=
  match deserialize_key r.entity_key .v3 with
  | .ok k => .ok ⟨feature_view_name, k, r.feature_name, r.value, r.event_ts, some r.created_ts⟩
  | .err e => .err e
  | .panic => .panic

def rows_into_online_store_rows (feature_view_name : String) :
    List SqliteStoreRow → Res (List OnlineStoreRow)
  | [] => .ok []
  | r :: rest =>
    Res.bind (try_into_online_store_row r feature_view_name) fun row =>
    Res.bind (rows_into_online_store_rows feature_view_name rest) fun rs =>
    .ok (row :: rs)

/-- One per-view sqlite query:
`SELECT .. WHERE entity_key IN (keys) AND feature_name IN (names)` over
the view's table (`none` = the table does not exist, which the adapter
maps to "no rows"). -/
def sqlite_query_view (table : Option (List SqliteStoreRow)) (view_name : String)
    (keys : List (List Nat)) (feats : List String) : Res (List OnlineStoreRow) :=
  match table with
  | none => .ok []
  | some rows =>
    rows_into_online_store_rows view_name
      (rows.filter (fun r => keys.contains r.entity_key ∧ feats.contains r.feature_name))

/-! ## Claim C7 : row-order insensitivity -/

/-- The subsequence of grouped response rows a row list contributes to
one request entity id (the per-group projection of `group_rows`). -/
def group_proj (now : Int) (fvs : String → Option FeatureView)
    (lm : EntityColumnRef → Option String) (rows : List OnlineStoreRow)
    (k : RequestEntityIdKey) : List ResponseFeatureRow :=
  rows.filterMap (fun row =>
    match row_group_entry now fvs lm row with
    | .ok e => if e.1 = k then some e.2 else none
    | _ => none)

/-! ## Claim C3 : response alignment -/

/-- A response column's three vectors have equal length. -/
def frAligned (fr : FeatureResults) : Prop :=
  fr.values.length = fr.statuses.length ∧ fr.values.length = fr.event_timestamps.length

/-- Every column of a result list is aligned. -/
def Aligned (rs : List FeatureResults) : Prop := ∀ fr ∈ rs, frAligned fr

/-- Builder state while the keys of one entity group are processed:
`features` and `results` agree in length, the next feature column goes
exactly at the end, and every registered feature index is in range. -/
def InGroup (b : Builder) : Prop :=
  b.features.length = b.results.length ∧
  b.next_feature_idx = b.results.length ∧
  b.current_entity_idx < b.next_feature_idx ∧
  ∀ pr ∈ b.feature_to_idx, pr.2 < b.next_feature_idx

/-- Builder state between entity groups (also the initial state). -/
def GroupStart (b : Builder) : Prop :=
  b.features.length = b.results.length ∧
  b.current_entity_idx = b.results.length ∧
  b.next_feature_idx = b.results.length + 1 ∧
  ∀ pr ∈ b.feature_to_idx, pr.2 < b.results.length

/-- Builder state after the entity column's name was pushed but before
its first value. -/
def PostName (b : Builder) : Prop :=
  b.features.length = b.results.length + 1 ∧
  b.current_entity_idx = b.results.length ∧
  b.next_feature_idx = b.results.length + 1 ∧
  ∀ pr ∈ b.feature_to_idx, pr.2 < b.results.length

/-! ## Claim C4 : alias lookup-key mapping and the key-vector cache -/

/-- The key under which `feature_views_to_keys` caches a view's entity
key vector: the comma-joined *origin* column names. -/
def viewCacheKey (view : FeatureView) : String :=
  String.intercalate "," (view.entity_columns.map (fun c => c.name))

/-- The inner per-column step of `build_lookup_key_mapping` (the same
term as in the definition, named so it can be reasoned about). -/
def blkmInner (view : FeatureView) (names : List String)
    (mapping : EntityColumnRef → Option String) (col : Field) :
    EntityColumnRef → Option String :=
  let lookup_name :=
    match view.join_key_map with
    | some m =>
      match lookupStr m col.name with
      | some al => if names.contains al then al else col.name
      | none => col.name
    | none => col.name
  fun key => if key = ⟨view.name, col.name⟩ then some lookup_name else mapping key

/-- The outer per-view step of `build_lookup_key_mapping`. -/
def blkmOuter (names : List String) (mapping : EntityColumnRef → Option String)
    (fv : Feature × FeatureView) : EntityColumnRef → Option String :=
  if fv.2.is_entity_less then mapping
  else fv.2.entity_columns.foldl (blkmInner fv.2 names) mapping

/-! ## Theorems -/

theorem char_valid_nat (c : Char) : c.toNat < 0xD800 ∨ (0xDFFF < c.toNat ∧ c.toNat < 0x110000) :=
  c.valid

/-- Decoding the encoder's output for one scalar consumes exactly that
scalar and continues. -/
theorem utf8DecodeOne_charUtf8 (c : Char) (rest : List Nat) :
    utf8DecodeOne (charUtf8 c ++ rest) = some (c.toNat, rest) := by
  have hv := char_valid_nat c
  by_cases h1 : c.toNat < 0x80
  · have hbytes : charUtf8 c = [c.toNat] := by
      simp only [charUtf8]
      rw [if_pos h1]
    rw [hbytes, List.cons_append, List.nil_append]
    simp only [utf8DecodeOne]
    rw [if_pos h1]
  · by_cases h2 : c.toNat < 0x800
    · have hbytes : charUtf8 c = [0xC0 + c.toNat / 64, 0x80 + c.toNat % 64] := by
        simp only [charUtf8]
        rw [if_neg h1, if_pos h2]
      rw [hbytes, List.cons_append, List.cons_append, List.nil_append]
      simp only [utf8DecodeOne]
      rw [if_neg (by omega), if_neg (by omega), if_pos (by omega), if_pos (by omega)]
      have : (0xC0 + c.toNat / 64 - 0xC0) * 64 + (0x80 + c.toNat % 64 - 0x80) = c.toNat := by
        omega
      rw [this]
    · by_cases h3 : c.toNat < 0x10000
      · have hbytes : charUtf8 c =
            [0xE0 + c.toNat / 4096, 0x80 + c.toNat / 64 % 64, 0x80 + c.toNat % 64] := by
          simp only [charUtf8]
          rw [if_neg h1, if_neg h2, if_pos h3]
        rw [hbytes, List.cons_append, List.cons_append, List.cons_append, List.nil_append]
        simp only [utf8DecodeOne]
        rw [if_neg (by omega), if_neg (by omega), if_neg (by omega), if_pos (by omega),
          if_pos (by omega)]
        have : (0xE0 + c.toNat / 4096 - 0xE0) * 4096 + (0x80 + c.toNat / 64 % 64 - 0x80) * 64 +
            (0x80 + c.toNat % 64 - 0x80) = c.toNat := by omega
        rw [this]
      · have h4 : c.toNat < 0x110000 := by omega
        have hbytes : charUtf8 c = [0xF0 + c.toNat / 262144, 0x80 + c.toNat / 4096 % 64,
            0x80 + c.toNat / 64 % 64, 0x80 + c.toNat % 64] := by
          simp only [charUtf8]
          rw [if_neg h1, if_neg h2, if_neg h3]
        rw [hbytes, List.cons_append, List.cons_append, List.cons_append, List.cons_append,
          List.nil_append]
        simp only [utf8DecodeOne]
        rw [if_neg (by omega), if_neg (by omega), if_neg (by omega), if_neg (by omega),
          if_pos (by omega), if_pos (by omega)]
        have : (0xF0 + c.toNat / 262144 - 0xF0) * 262144 +
            (0x80 + c.toNat / 4096 % 64 - 0x80) * 4096 + (0x80 + c.toNat / 64 % 64 - 0x80) * 64 +
            (0x80 + c.toNat % 64 - 0x80) = c.toNat := by omega
        rw [this]

theorem charUtf8_ne_nil (c : Char) : charUtf8 c ≠ [] := by
  simp only [charUtf8]
  split
  · simp
  · split
    · simp
    · split
      · simp
      · simp

theorem utf8CharsAux_flatMap (cs : List Char) :
    ∀ fuel : Nat, (cs.flatMap charUtf8).length ≤ fuel →
      utf8CharsAux fuel (cs.flatMap charUtf8) = some cs := by
  induction cs with
  | nil => intro fuel _; cases fuel <;> rfl
  | cons c cs ih =>
    intro fuel hfuel
    have hne : charUtf8 c ≠ [] := charUtf8_ne_nil c
    have hlen : 1 ≤ (charUtf8 c).length := by
      cases hcu : charUtf8 c
      · exact absurd hcu hne
      · simp
    rw [List.flatMap_cons] at hfuel ⊢
    rw [List.length_append] at hfuel
    match fuel with
    | 0 => omega
    | fuel + 1 =>
      have hdec : utf8DecodeOne (charUtf8 c ++ cs.flatMap charUtf8) =
          some (c.toNat, cs.flatMap charUtf8) := utf8DecodeOne_charUtf8 c _
      have hih : utf8CharsAux fuel (cs.flatMap charUtf8) = some cs :=
        ih fuel (by omega)
      match hcu : charUtf8 c with
      | [] => exact absurd hcu hne
      | b0 :: t =>
        rw [hcu] at hdec
        rw [List.cons_append]
        rw [utf8CharsAux]
        simp only [List.cons_append] at hdec
        simp [hdec, hih, Char.ofNat_toNat]

theorem utf8Chars_flatMap (cs : List Char) :
    utf8Chars (cs.flatMap charUtf8) = some cs := by
  rw [utf8Chars]
  exact utf8CharsAux_flatMap cs _ (Nat.le_refl _)

/-- `String::from_utf8(s.as_bytes()) == Ok(s)`. -/
theorem strFromBytes_strBytes (s : String) : strFromBytes (strBytes s) = some s := by
  rw [strBytes, strFromBytes, utf8Chars_flatMap]
  rfl

theorem leVal_u32le (n : Nat) (h : n < 4294967296) : leVal (u32le n) = n := by
  simp only [u32le, leVal]
  omega

theorem leVal_u64le (n : Nat) (h : n < 18446744073709551616) : leVal (u64le n) = n := by
  simp only [u64le, leVal]
  omega

@[simp] theorem length_u32le (n : Nat) : (u32le n).length = 4 := rfl

@[simp] theorem length_u64le (n : Nat) : (u64le n).length = 8 := rfl

theorem i32_round_trip (v : Int) (hlo : -2147483648 ≤ v) (hhi : v < 2147483648) :
    i32ofBits (leVal (i32le v)) = v := by
  rw [i32le, leVal_u32le _ (by omega)]
  rw [i32ofBits]
  split <;> omega

theorem i64_round_trip (v : Int) (hlo : -9223372036854775808 ≤ v)
    (hhi : v < 9223372036854775808) : i64ofBits (leVal (i64le v)) = v := by
  rw [i64le, leVal_u64le _ (by omega)]
  rw [i64ofBits]
  split <;> omega

theorem insertSorted_perm (x : String) (l : List String) :
    List.Perm (insertSorted x l) (x :: l) := by
  induction l with
  | nil => exact List.Perm.refl _
  | cons y t ih =>
    rw [insertSorted]
    split
    · exact List.Perm.refl _
    · exact (List.Perm.cons y ih).trans (List.Perm.swap x y t)

theorem sortStrings_perm (l : List String) : List.Perm (sortStrings l) l := by
  induction l with
  | nil => exact List.Perm.refl _
  | cons x t ih =>
    rw [sortStrings]
    exact (insertSorted_perm x (sortStrings t)).trans (List.Perm.cons x ih)

/-- Sanity check mirroring the repository's `test_serialize_key` :
`encode({driver_id: int64(1005)})` is the documented byte string
`01000000 02000000 09000000 "driver_id" 04000000 08000000 ED03...`. -/
example : serialize_key ⟨["driver_id"], [⟨some (.int64Val 1005)⟩]⟩ .v3 =
    .ok ([1, 0, 0, 0, 2, 0, 0, 0, 9, 0, 0, 0,
      100, 114, 105, 118, 101, 114, 95, 105, 100,
      4, 0, 0, 0, 8, 0, 0, 0, 0xED, 3, 0, 0, 0, 0, 0, 0]) := by decide

/-- Sanity check mirroring the repository's `test_deserialize_key`. -/
example :
    Res.bind (serialize_key ⟨["driver_id"], [⟨some (.int64Val 1005)⟩]⟩ .v3)
      (fun bs => deserialize_key bs .v3) =
    .ok ⟨["driver_id"], [⟨some (.int64Val 1005)⟩]⟩ := by decide

theorem readSlice_spec {bytes chunk rest : List Nat} {idx n : Nat}
    (hdrop : bytes.drop idx = chunk ++ rest) (hlen : chunk.length = n)
    (hidx : idx ≤ bytes.length) : readSlice bytes idx n = .ok chunk := by
  have hdl : (bytes.drop idx).length = bytes.length - idx := List.length_drop idx bytes
  rw [hdrop, List.length_append] at hdl
  rw [readSlice, if_pos (by omega)]
  rw [hdrop, ← hlen, List.take_left]

theorem drop_next {bytes chunk rest : List Nat} {idx : Nat}
    (hdrop : bytes.drop idx = chunk ++ rest) :
    bytes.drop (idx + chunk.length) = rest := by
  rw [← List.drop_drop, hdrop, List.drop_left]

theorem le_next {bytes chunk rest : List Nat} {idx : Nat}
    (hdrop : bytes.drop idx = chunk ++ rest) (hidx : idx ≤ bytes.length) :
    idx + chunk.length ≤ bytes.length := by
  have hdl : (bytes.drop idx).length = bytes.length - idx := List.length_drop idx bytes
  rw [hdrop, List.length_append] at hdl
  omega

theorem readU32_spec {bytes rest : List Nat} {idx n : Nat}
    (hdrop : bytes.drop idx = u32le n ++ rest) (hn : n < 4294967296)
    (hidx : idx ≤ bytes.length) : readU32 bytes idx = .ok n := by
  rw [readU32, readSlice_spec hdrop (length_u32le n) hidx, Res.bind_ok, leVal_u32le n hn]

theorem readI32_tag_spec {bytes rest : List Nat} {idx n : Nat}
    (hdrop : bytes.drop idx = u32le n ++ rest) (hn : n < 2147483648)
    (hidx : idx ≤ bytes.length) : readI32 bytes idx = .ok (n : Int) := by
  rw [readI32, readSlice_spec hdrop (length_u32le n) hidx, Res.bind_ok,
    leVal_u32le n (by omega), i32ofBits, if_pos hn]

theorem readI32_val_spec {bytes rest : List Nat} {idx : Nat} {v : Int}
    (hdrop : bytes.drop idx = i32le v ++ rest)
    (hlo : -2147483648 ≤ v) (hhi : v < 2147483648)
    (hidx : idx ≤ bytes.length) : readI32 bytes idx = .ok v := by
  have hl : (i32le v).length = 4 := rfl
  rw [readI32, readSlice_spec hdrop hl hidx, Res.bind_ok, i32_round_trip v hlo hhi]

theorem readI64_val_spec {bytes rest : List Nat} {idx : Nat} {v : Int}
    (hdrop : bytes.drop idx = i64le v ++ rest)
    (hlo : -9223372036854775808 ≤ v) (hhi : v < 9223372036854775808)
    (hidx : idx ≤ bytes.length) : readI64 bytes idx = .ok v := by
  have hl : (i64le v).length = 8 := rfl
  rw [readI64, readSlice_spec hdrop hl hidx, Res.bind_ok, i64_round_trip v hlo hhi]

/-- Deserialising the serialised form of a supported value yields it
back and advances the index past its record. -/
theorem deserialize_serialize_val {u : Val} (hsup : SupVal u) {b : List Nat}
    (hser : serialize_value ⟨some u⟩ = .ok b) {bytes rest : List Nat} {idx : Nat}
    (hdrop : bytes.drop idx = b ++ rest) (hidx : idx ≤ bytes.length) :
    deserialize_val bytes idx = .ok (u, idx + b.length) := by
  match u with
  | .int32Val v =>
    have hb : b = u32le int32Tag ++ u32le 4 ++ i32le v := by
      simp only [serialize_value] at hser
      exact ((Res.ok.injEq _ _).mp hser).symm
    subst hb
    simp only [List.append_assoc] at hdrop
    have h1 : readI32 bytes idx = .ok ((int32Tag : Nat) : Int) :=
      readI32_tag_spec hdrop (by norm_num [int32Tag]) hidx
    have hd2 : bytes.drop (idx + 4) = u32le 4 ++ (i32le v ++ rest) := drop_next hdrop
    have hi2 : idx + 4 ≤ bytes.length := le_next hdrop hidx
    have h2 : readU32 bytes (idx + 4) = .ok 4 := readU32_spec hd2 (by norm_num) hi2
    have hd3 : bytes.drop (idx + 4 + 4) = i32le v ++ rest := drop_next hd2
    have hi3 : idx + 4 + 4 ≤ bytes.length := le_next hd2 hi2
    have h3 : readI32 bytes (idx + 8) = .ok v := by
      have heq : idx + 4 + 4 = idx + 8 := by omega
      rw [← heq]
      exact readI32_val_spec hd3 hsup.1 hsup.2 hi3
    have hL : (u32le int32Tag ++ u32le 4 ++ i32le v).length = 12 := rfl
    rw [hL]
    simp only [deserialize_val, h1, h2, h3, Res.bind_ok]
    norm_num [int32Tag, validTagInts]
  | .int64Val v =>
    have hb : b = u32le int64Tag ++ u32le 8 ++ i64le v := by
      simp only [serialize_value] at hser
      exact ((Res.ok.injEq _ _).mp hser).symm
    subst hb
    simp only [List.append_assoc] at hdrop
    have h1 : readI32 bytes idx = .ok ((int64Tag : Nat) : Int) :=
      readI32_tag_spec hdrop (by norm_num [int64Tag]) hidx
    have hd2 : bytes.drop (idx + 4) = u32le 8 ++ (i64le v ++ rest) := drop_next hdrop
    have hi2 : idx + 4 ≤ bytes.length := le_next hdrop hidx
    have h2 : readU32 bytes (idx + 4) = .ok 8 := readU32_spec hd2 (by norm_num) hi2
    have hd3 : bytes.drop (idx + 4 + 4) = i64le v ++ rest := drop_next hd2
    have hi3 : idx + 4 + 4 ≤ bytes.length := le_next hd2 hi2
    have h3 : readI64 bytes (idx + 8) = .ok v := by
      have heq : idx + 4 + 4 = idx + 8 := by omega
      rw [← heq]
      exact readI64_val_spec hd3 hsup.1 hsup.2 hi3
    have hL : (u32le int64Tag ++ u32le 8 ++ i64le v).length = 16 := rfl
    rw [hL]
    simp only [deserialize_val, h1, h2, h3, Res.bind_ok]
    norm_num [int64Tag, int32Tag, validTagInts]
  | .stringVal s =>
    have hb : b = u32le stringTag ++ u32le (strBytes s).length ++ strBytes s := by
      simp only [serialize_value] at hser
      exact ((Res.ok.injEq _ _).mp hser).symm
    subst hb
    simp only [List.append_assoc] at hdrop
    have h1 : readI32 bytes idx = .ok ((stringTag : Nat) : Int) :=
      readI32_tag_spec hdrop (by norm_num [stringTag]) hidx
    have hd2 : bytes.drop (idx + 4) = u32le (strBytes s).length ++ (strBytes s ++ rest) :=
      drop_next hdrop
    have hi2 : idx + 4 ≤ bytes.length := le_next hdrop hidx
    have h2 : readU32 bytes (idx + 4) = .ok (strBytes s).length := readU32_spec hd2 hsup hi2
    have hd3 : bytes.drop (idx + 4 + 4) = strBytes s ++ rest := drop_next hd2
    have hi3 : idx + 4 + 4 ≤ bytes.length := le_next hd2 hi2
    have h3 : readSlice bytes (idx + 8) (strBytes s).length = .ok (strBytes s) := by
      have heq : idx + 4 + 4 = idx + 8 := by omega
      rw [← heq]
      exact readSlice_spec hd3 rfl hi3
    have hL : (u32le stringTag ++ u32le (strBytes s).length ++ strBytes s).length =
        8 + (strBytes s).length := by
      simp only [List.length_append, length_u32le]
    rw [hL]
    simp only [deserialize_val, h1, h2, h3, Res.bind_ok, strFromBytes_strBytes s]
    norm_num [stringTag, int32Tag, int64Tag, validTagInts]
    omega
  | .bytesVal l => exact absurd hsup (by simp [SupVal])
  | .boolVal bb => exact absurd hsup (by simp [SupVal])

theorem serialize_value_ok {u : Val} (hsup : SupVal u) :
    ∃ b, serialize_value ⟨some u⟩ = .ok b := by
  match u with
  | .int32Val v => exact ⟨_, rfl⟩
  | .int64Val v => exact ⟨_, rfl⟩
  | .stringVal s => exact ⟨_, rfl⟩
  | .bytesVal l => exact ⟨_, rfl⟩
  | .boolVal bb => exact absurd hsup (by simp [SupVal])

/-- Reading back `count` value records written by `valueRecords`. -/
theorem roundtrip_values (lookupV : String → Option Value) (ks : List String)
    (h : ∀ k ∈ ks, ∃ u, lookupV k = some ⟨some u⟩ ∧ SupVal u) :
    ∃ block, valueRecords lookupV ks = .ok block ∧
      ∀ bytes idx rest, bytes.drop idx = block ++ rest → idx ≤ bytes.length →
        readValues bytes idx ks.length =
          .ok (ks.map (fun k => (lookupV k).getD ⟨none⟩), idx + block.length) := by
  induction ks with
  | nil =>
    refine ⟨[], rfl, ?_⟩
    intro bytes idx rest _ _
    simp [readValues]
  | cons k ks ih =>
    obtain ⟨u, hu, hsup⟩ := h k (by simp)
    obtain ⟨b, hb⟩ := serialize_value_ok hsup
    obtain ⟨block, hblock, hread⟩ := ih (fun k hk => h k (by simp [hk]))
    refine ⟨b ++ block, ?_, ?_⟩
    · rw [valueRecords, hu]
      simp only [Option.getD_some]
      rw [hb, Res.bind_ok, hblock, Res.bind_ok]
    · intro bytes idx rest hdrop hidx
      rw [List.append_assoc] at hdrop
      have h1 : deserialize_val bytes idx = .ok (u, idx + b.length) :=
        deserialize_serialize_val hsup hb hdrop hidx
      have hd2 : bytes.drop (idx + b.length) = block ++ rest := drop_next hdrop
      have hi2 : idx + b.length ≤ bytes.length := le_next hdrop hidx
      have h2 := hread bytes (idx + b.length) rest hd2 hi2
      rw [List.length_cons, readValues, h1, Res.bind_ok, h2, Res.bind_ok]
      rw [List.map_cons, hu]
      simp only [Option.getD_some]
      rw [List.length_append]
      have : idx + b.length + block.length = idx + (b.length + block.length) := by omega
      rw [this]

/-- Reading back `count` name records written in the sorted-names
section. -/
theorem roundtrip_names (ks : List String) (hlen : ∀ k ∈ ks, (strBytes k).length < 4294967296) :
    ∀ bytes idx rest, bytes.drop idx = ks.flatMap nameRecord ++ rest → idx ≤ bytes.length →
      readNames bytes idx ks.length = .ok (ks, idx + (ks.flatMap nameRecord).length) := by
  induction ks with
  | nil =>
    intro bytes idx rest _ _
    simp [readNames]
  | cons k ks ih =>
    intro bytes idx rest hdrop hidx
    rw [List.flatMap_cons] at hdrop
    rw [nameRecord] at hdrop
    simp only [List.append_assoc] at hdrop
    have h1 : readU32 bytes idx = .ok stringTag :=
      readU32_spec hdrop (by norm_num [stringTag]) hidx
    have hd2 : bytes.drop (idx + 4) =
        u32le (strBytes k).length ++ (strBytes k ++ (ks.flatMap nameRecord ++ rest)) :=
      drop_next hdrop
    have hi2 : idx + 4 ≤ bytes.length := le_next hdrop hidx
    have h2 : readU32 bytes (idx + 4) = .ok (strBytes k).length :=
      readU32_spec hd2 (hlen k (by simp)) hi2
    have hd3 : bytes.drop (idx + 4 + 4) = strBytes k ++ (ks.flatMap nameRecord ++ rest) :=
      drop_next hd2
    have hi3 : idx + 4 + 4 ≤ bytes.length := le_next hd2 hi2
    have h3 : readSlice bytes (idx + 8) (strBytes k).length = .ok (strBytes k) := by
      have heq : idx + 4 + 4 = idx + 8 := by omega
      rw [← heq]
      exact readSlice_spec hd3 rfl hi3
    have hd4 : bytes.drop (idx + 4 + 4 + (strBytes k).length) =
        ks.flatMap nameRecord ++ rest := drop_next hd3
    have hi4 : idx + 4 + 4 + (strBytes k).length ≤ bytes.length := le_next hd3 hi3
    have heq8 : idx + 4 + 4 + (strBytes k).length = idx + 8 + (strBytes k).length := by omega
    rw [heq8] at hd4 hi4
    have h4 := ih (fun x hx => hlen x (by simp [hx])) bytes (idx + 8 + (strBytes k).length)
      rest hd4 hi4
    rw [List.length_cons]
    simp only [readNames, h1, h2, h3, h4, Res.bind_ok, strFromBytes_strBytes k]
    rw [if_neg (by simp)]
    rw [List.flatMap_cons, List.length_append, nameRecord]
    simp only [List.length_append, length_u32le]
    congr 2
    omega

theorem dedupAux_of_nodup (l : List String) :
    ∀ seen, l.Nodup → (∀ x ∈ l, x ∉ seen) → dedupAux seen l = l := by
  induction l with
  | nil => intro seen _ _; rfl
  | cons k t ih =>
    intro seen hnd hsee
    rw [dedupAux, if_neg (hsee k (by simp))]
    rw [ih (k :: seen) (List.Nodup.of_cons hnd) ?_]
    intro x hx
    simp only [List.mem_cons, not_or]
    refine ⟨?_, hsee x (by simp [hx])⟩
    intro hxk
    subst hxk
    exact (List.nodup_cons.mp hnd).1 hx

theorem dedupKeys_of_nodup {l : List String} (h : l.Nodup) : dedupKeys l = l :=
  dedupAux_of_nodup l [] h (by simp)

theorem assocLookup_append (a b : List (String × Value)) (key : String) :
    assocLookup (a ++ b) key =
      match assocLookup a key with
      | some v => some v
      | none => assocLookup b key := by
  induction a with
  | nil => simp [assocLookup]
  | cons p t ih =>
    rw [List.cons_append, assocLookup, assocLookup]
    split
    · rfl
    · exact ih

theorem assocLookup_eq_none {l : List (String × Value)} {key : String} :
    assocLookup l key = none ↔ key ∉ l.map Prod.fst := by
  induction l with
  | nil => simp [assocLookup]
  | cons p t ih =>
    rw [assocLookup]
    constructor
    · intro h
      split at h
      · exact absurd h (by simp)
      · rename_i hne
        simp only [List.map_cons, List.mem_cons, not_or]
        exact ⟨fun hx => hne hx.symm, ih.mp h⟩
    · intro h
      simp only [List.map_cons, List.mem_cons, not_or] at h
      rw [if_neg (fun hx => h.1 hx.symm)]
      exact ih.mpr h.2

theorem assocLookup_reverse_of_nodup (l : List (String × Value))
    (hnd : (l.map Prod.fst).Nodup) (key : String) :
    assocLookup l.reverse key = assocLookup l key := by
  induction l with
  | nil => rfl
  | cons p t ih =>
    obtain ⟨pk, pv⟩ := p
    rw [List.map_cons, List.nodup_cons] at hnd
    rw [List.reverse_cons, assocLookup_append]
    by_cases hk : pk = key
    · subst hk
      have hnone : assocLookup t.reverse pk = none := by
        rw [assocLookup_eq_none, List.map_reverse]
        simp only [List.mem_reverse]
        exact hnd.1
      rw [hnone]
      simp [assocLookup]
    · have hskip : assocLookup ((pk, pv) :: t) key = assocLookup t key := by
        rw [assocLookup, if_neg hk]
      rw [hskip, ← ih hnd.2]
      cases hl : assocLookup t.reverse key with
      | some v => rfl
      | none => simp [assocLookup, hk]

theorem assocLookup_zip_nodup (names : List String) (vals : List Value)
    (hnd : names.Nodup) (hlen : names.length = vals.length) :
    names.map (fun k => (k, (assocLookup (names.zip vals) k).getD ⟨none⟩)) =
      names.zip vals := by
  induction names generalizing vals with
  | nil => simp
  | cons n ns ih =>
    match vals with
    | [] => simp at hlen
    | v :: vs =>
      rw [List.zip_cons_cons, List.map_cons]
      rw [List.nodup_cons] at hnd
      have hhead : assocLookup ((n, v) :: ns.zip vs) n = some v := by
        rw [assocLookup, if_pos rfl]
      rw [hhead]
      simp only [Option.getD_some]
      congr 1
      have hmap : ∀ k ∈ ns,
          (k, (assocLookup ((n, v) :: ns.zip vs) k).getD (⟨none⟩ : Value)) =
          (k, (assocLookup (ns.zip vs) k).getD (⟨none⟩ : Value)) := by
        intro k hk
        have hne : ¬ n = k := fun h => hnd.1 (h ▸ hk)
        rw [assocLookup, if_neg hne]
      rw [List.map_congr_left hmap]
      exact ih vs hnd.2 (by simpa using hlen)

theorem assocLookup_mem {names : List String} {vals : List Value} {k : String}
    (hk : k ∈ names) (hlen : names.length = vals.length) :
    ∃ v, assocLookup (names.zip vals) k = some v ∧ v ∈ vals := by
  induction names generalizing vals with
  | nil => simp at hk
  | cons n ns ih =>
    match vals with
    | [] => simp at hlen
    | v :: vs =>
      rw [List.zip_cons_cons, assocLookup]
      by_cases hnk : n = k
      · exact ⟨v, by rw [if_pos hnk], by simp⟩
      · rw [if_neg hnk]
        have hk' : k ∈ ns := by
          rcases List.mem_cons.mp hk with h | h
          · exact absurd h.symm hnk
          · exact h
        obtain ⟨w, hw, hwm⟩ := ih hk' (by simpa using hlen)
        exact ⟨w, hw, by simp [hwm]⟩

theorem zip_map_self {α β : Type} (l : List α) (g : α → β) :
    l.zip (l.map g) = l.map (fun x => (x, g x)) := by
  induction l with
  | nil => rfl
  | cons x t ih => simp [ih]

/-- C1 (amended): the codec round trip for a logical `EntityKey` with
pairwise-distinct join-key names, values restricted to in-range int32,
in-range int64 and strings, and fewer than `2^32` names each of byte
length below `2^32`: serialising then deserialising succeeds and
preserves the *(name, value)* pair multiset. -/
theorem serialize_deserialize_key (names : List String) (vals : List Value)
    (hlen : names.length = vals.length)
    (hnd : names.Nodup)
    (hcnt : names.length < 4294967296)
    (hnames : ∀ n ∈ names, (strBytes n).length < 4294967296)
    (hvals : ∀ v ∈ vals, ∃ u, v.val = some u ∧ SupVal u) :
    ∃ bs k2, serialize_key ⟨names, vals⟩ .v3 = .ok bs ∧ deserialize_key bs .v3 = .ok k2 ∧
      List.Perm (k2.join_keys.zip k2.entity_values) (names.zip vals) := by
  have hfst : (names.zip vals).map Prod.fst = names :=
    List.map_fst_zip names vals (le_of_eq hlen)
  have hrevf : assocLookup (names.zip vals).reverse = assocLookup (names.zip vals) :=
    funext (assocLookup_reverse_of_nodup _ (by rw [hfst]; exact hnd))
  have hperm : List.Perm (sortStrings names) names := sortStrings_perm names
  have hlook : ∀ s ∈ sortStrings names,
      ∃ u, assocLookup (names.zip vals) s = some ⟨some u⟩ ∧ SupVal u := by
    intro s hs
    have hsn : s ∈ names := hperm.mem_iff.mp hs
    obtain ⟨v, hv, hvm⟩ := assocLookup_mem hsn hlen
    obtain ⟨u, hu, hsup⟩ := hvals v hvm
    refine ⟨u, ?_, hsup⟩
    rw [hv]
    cases v
    simp only at hu
    rw [hu]
  obtain ⟨block, hblock, hreadv⟩ := roundtrip_values _ (sortStrings names) hlook
  have hserialize : serialize_key ⟨names, vals⟩ .v3 =
      .ok (u32le (sortStrings names).length ++ (sortStrings names).flatMap nameRecord ++
        block) := by
    simp only [serialize_key, if_neg (by simp : ¬ EntityKeySerializationVersion.v3 ≠ .v3)]
    simp only [hfst, dedupKeys_of_nodup hnd, hrevf, hblock, Res.bind_ok]
  set BS := u32le (sortStrings names).length ++ (sortStrings names).flatMap nameRecord ++ block
    with hBS
  have hNlt : (sortStrings names).length < 4294967296 := by
    rw [hperm.length_eq]
    exact hcnt
  have hd0 : BS.drop 0 = u32le (sortStrings names).length ++
      ((sortStrings names).flatMap nameRecord ++ (block ++ [])) := by
    rw [List.drop_zero, hBS, List.append_nil]
    simp [List.append_assoc]
  have h0 : readU32 BS 0 = .ok (sortStrings names).length :=
    readU32_spec hd0 hNlt (by omega)
  have hd1 : BS.drop (0 + 4) = (sortStrings names).flatMap nameRecord ++ (block ++ []) := by
    have := drop_next hd0
    simpa using this
  have hi1 : 0 + 4 ≤ BS.length := le_next hd0 (by omega)
  have h1 : readNames BS 4 (sortStrings names).length =
      .ok (sortStrings names, 4 + ((sortStrings names).flatMap nameRecord).length) := by
    have := roundtrip_names (sortStrings names)
      (fun x hx => hnames x (hperm.mem_iff.mp hx)) BS 4 (block ++ []) (by simpa using hd1)
      (by omega)
    simpa using this
  have hd2 : BS.drop (4 + ((sortStrings names).flatMap nameRecord).length) = block ++ [] := by
    have := drop_next (by simpa using hd1 :
      BS.drop 4 = (sortStrings names).flatMap nameRecord ++ (block ++ []))
    simpa using this
  have hi2 : 4 + ((sortStrings names).flatMap nameRecord).length ≤ BS.length := by
    have := le_next (by simpa using hd1 :
      BS.drop 4 = (sortStrings names).flatMap nameRecord ++ (block ++ []))
      (by simpa using hi1)
    simpa using this
  have h2 : readValues BS (4 + ((sortStrings names).flatMap nameRecord).length)
      (sortStrings names).length =
      .ok ((sortStrings names).map (fun k => (assocLookup (names.zip vals) k).getD ⟨none⟩),
        4 + ((sortStrings names).flatMap nameRecord).length + block.length) :=
    hreadv BS _ [] hd2 hi2
  have hdeser : deserialize_key BS .v3 =
      .ok ⟨sortStrings names,
        (sortStrings names).map (fun k => (assocLookup (names.zip vals) k).getD ⟨none⟩)⟩ := by
    simp only [deserialize_key, if_neg (by simp : ¬ EntityKeySerializationVersion.v3 ≠ .v3)]
    rw [h0, Res.bind_ok, h1, Res.bind_ok, h2, Res.bind_ok]
  refine ⟨BS, _, hserialize, hdeser, ?_⟩
  simp only
  rw [zip_map_self]
  have hmapped := List.Perm.map
    (fun k => (k, (assocLookup (names.zip vals) k).getD (⟨none⟩ : Value))) hperm
  rw [assocLookup_zip_nodup names vals hnd hlen] at hmapped
  exact hmapped

/-- `Res.bind x f` succeeds exactly when `x` succeeds and `f` does. -/
theorem Res.bind_eq_ok {α β : Type} {x : Res α} {f : α → Res β} {r : β}
    (h : Res.bind x f = .ok r) : ∃ a, x = .ok a ∧ f a = .ok r := by
  cases x with
  | ok a => exact ⟨a, rfl, h⟩
  | err e => exact absurd h (by simp [Res.bind])
  | panic => exact absurd h (by simp [Res.bind])

/-- Sanity check mirroring the repository's
`try_from_builds_response_with_missing_values` test: two requested
driver ids, one store row (for the first), expected columns
`driver_id` and `acc_rate` with the second cell `NotFound`. -/
example :
    try_from [("driver_id", [.int 1001, .int 1002])]
      [⟨"driver_hourly_stats", ⟨["driver_id"], [⟨some (.int64Val 1001)⟩]⟩, "acc_rate",
        ⟨some (.int64Val 42)⟩, 1000, none⟩]
      (fun v => if v = "driver_hourly_stats" then
        some ⟨"driver_hourly_stats", [], 3600, ["driver_id"], [], none⟩ else none)
      (fun r => if r = ⟨"driver_hourly_stats", "driver_id"⟩ then some "driver_id" else none)
      [⟨"driver_hourly_stats", "acc_rate"⟩] false 1000 =
    .ok ⟨["driver_id", "acc_rate"],
      [⟨[⟨some (.int64Val 1001)⟩, ⟨some (.int64Val 1002)⟩], [.present, .present],
        [epoch, epoch]⟩,
       ⟨[⟨some (.int64Val 42)⟩, ⟨none⟩], [.present, .notFound], [1000, epoch]⟩]⟩ := by
  decide

/-! ## Claim C2 : the per-cell status rule -/

/-- C2 counterexample: `get_feature_status` applies no zero-TTL
special case. For a view whose TTL is `0` and a present value with
`now > event_ts`, the computed status is `OutsideMaxAge`, whereas the
claim ("OutsideMaxAge iff the TTL is non-zero and now > event_ts + ttl;
a TTL of zero means the value never expires") requires `Present`. -/
theorem c2_zero_ttl_marks_expired :
    get_feature_status 1 ⟨some (.int64Val 5)⟩
      (some ⟨"driver_hourly_stats", [], 0, ["driver_id"], [], none⟩) 0 = .outsideMaxAge ∧
    (⟨"driver_hourly_stats", [], 0, ["driver_id"], [], none⟩ : FeatureView).ttl = 0 := by
  decide

/-- C2 (amended): for every present value whose owning view is found,
the status is `OutsideMaxAge` iff `now > event_ts + ttl` — also when
the TTL is zero, in which case the value expires as soon as `now`
exceeds `event_ts` — and `Present` otherwise; at the exact boundary
`now = event_ts + ttl` the status is `Present` (strict comparison). -/
theorem c2_status_rule (now event_ts : Int) (value : Value) (fv : FeatureView)
    (hval : value.val.isSome = true) :
    (get_feature_status now value (some fv) event_ts = .outsideMaxAge ↔
      event_ts + fv.ttl < now) ∧
    (get_feature_status now value (some fv) event_ts = .present ↔
      now ≤ event_ts + fv.ttl) := by
  obtain ⟨u, hu⟩ := Option.isSome_iff_exists.mp hval
  simp only [get_feature_status, hu, Option.isNone_some, Bool.false_eq_true, if_false]
  constructor
  · constructor
    · intro h
      by_contra hlt
      rw [if_neg (by omega)] at h
      exact absurd h (by simp)
    · intro h
      rw [if_pos (by omega)]
  · constructor
    · intro h
      by_contra hlt
      rw [if_pos (by omega)] at h
      exact absurd h (by simp)
    · intro h
      rw [if_neg (by omega)]

/-- C2 witness: the amended rule evaluated at `now = 5`,
`event_ts = 1`, `ttl = 3` (so the value is expired). -/
theorem c2_status_rule_witness :
    (get_feature_status 5 ⟨some (.int64Val 7)⟩ (some ⟨"v", [], 3, ["e"], [], none⟩) 1 =
        .outsideMaxAge ↔ (1 : Int) + 3 < 5) ∧
    (get_feature_status 5 ⟨some (.int64Val 7)⟩ (some ⟨"v", [], 3, ["e"], [], none⟩) 1 =
        .present ↔ (5 : Int) ≤ 1 + 3) :=
  c2_status_rule 5 1 ⟨some (.int64Val 7)⟩ ⟨"v", [], 3, ["e"], [], none⟩ (by decide)

/-! ## Claim C5 : ragged entity vectors -/

/-- C5: `feature_views_to_keys` performs no length check across a
view's entity columns. For a two-column view whose first column's
request vector (length 2) is longer than the second's (length 1), the
iteration indexes the second vector out of bounds and *panics* —
there is no `RaggedEntityVectors` error value. With the second vector
*longer* (length 3), planning silently succeeds, truncating the extra
values — again no error. -/
theorem c5_ragged_vectors_panic :
    feature_views_to_keys
      [(⟨"v2", "f"⟩, ⟨"v2", [], 0, ["e1", "e2"],
        [⟨"c1", .int64⟩, ⟨"c2", .int64⟩], none⟩)]
      [("e1", [.int 1, .int 2]), ("e2", [.int 3])]
      (fun r => if r = ⟨"v2", "c1"⟩ then some "e1"
        else if r = ⟨"v2", "c2"⟩ then some "e2" else none) = .panic ∧
    feature_views_to_keys
      [(⟨"v2", "f"⟩, ⟨"v2", [], 0, ["e1", "e2"],
        [⟨"c1", .int64⟩, ⟨"c2", .int64⟩], none⟩)]
      [("e1", [.int 1, .int 2]), ("e2", [.int 3, .int 4, .int 5])]
      (fun r => if r = ⟨"v2", "c1"⟩ then some "e1"
        else if r = ⟨"v2", "c2"⟩ then some "e2" else none) =
      .ok [⟨⟨"v2", "f"⟩, .plain,
        [⟨["c1", "c2"], [⟨some (.int64Val 1)⟩, ⟨some (.int64Val 3)⟩]⟩,
         ⟨["c1", "c2"], [⟨some (.int64Val 2)⟩, ⟨some (.int64Val 4)⟩]⟩]⟩] := by
  constructor
  · decide
  · decide

/-! ## Claim C6 : decoder totality -/

/-- C6: `deserialize_key` is *not* total: on a truncated input the
slice `bytes[idx..idx + 4]` is out of range and the function panics
instead of returning an `InvalidKeyFormat`-style error. Shown on the
empty byte string (the initial `bytes[0..4]`) and on a four-byte input
announcing one column but carrying no name record. -/
theorem c6_truncated_input_panics :
    deserialize_key [] .v3 = .panic ∧ deserialize_key [1, 0, 0, 0] .v3 = .panic := by
  decide

/-! ## Claim C9 : empty request rejection -/

/-- C9 counterexample: a request with no feature service and an empty
feature list resolves to `RequestedFeatures::FeatureNames([])`, and
the registry's name resolution returns an empty map — no
`InvalidRequest` (or any other) error is produced anywhere in the
pipeline. -/
theorem c9_empty_request_accepted :
    requested_features_from ⟨[("driver_id", [.int 1])], none, some [], none⟩ =
      .featureNames [] ∧
    get_feature_views_names ⟨fun _ => none, fun _ => false⟩ [] = .ok [] := by
  exact ⟨rfl, rfl⟩

/-- C9 (amended): a request carrying no feature service and an empty
(or absent) feature list is *not* rejected: it resolves to the empty
requested-feature list and name resolution succeeds with an empty
feature map, for every registry. -/
theorem c9_empty_request_resolves (reg : FeatureRegistryModel)
    (entities : List (String × List EntityIdValue)) (ffn : Option Bool)
    (features : Option (List String)) (hf : features = some [] ∨ features = none) :
    requested_features_from ⟨entities, none, features, ffn⟩ = .featureNames [] ∧
    get_feature_views_names reg [] = .ok [] := by
  rcases hf with h | h
  · subst h
    exact ⟨rfl, rfl⟩
  · subst h
    exact ⟨rfl, rfl⟩

/-- C9 witness: the amended statement at a concrete registry and
request. -/
theorem c9_empty_request_resolves_witness :
    requested_features_from ⟨[("driver_id", [.int 1])], none, some [], some false⟩ =
      .featureNames [] ∧
    get_feature_views_names ⟨fun _ => none, fun _ => false⟩ [] = .ok [] :=
  c9_empty_request_resolves ⟨fun _ => none, fun _ => false⟩ [("driver_id", [.int 1])]
    (some false) (some []) (Or.inl rfl)

/-! ## Claim C8 : store row production for missing entries -/

/-- The Redis adapter's per-key row production, characterised: one row
per requested feature, in request order, with the hash field's decoded
value — or a *null* value when the field (or key) is absent — and the
view's timestamp (or the epoch). -/
theorem redis_rows_loop_requests (key : EntityKey)
    (valueOf : String → String → Option Value) (tsOf : String → Option Int)
    (feats : List Feature) :
    ∀ (seen : List String) (tsm : String → Option (Option Int)),
      (∀ v ∈ seen, tsm v = some (tsOf v)) →
      redis_rows_loop key valueOf tsOf (redis_requests feats seen) tsm =
        feats.map (fun f => ⟨f.feature_view_name, key, f.feature_name,
          (valueOf f.feature_view_name f.feature_name).getD ⟨none⟩,
          (tsOf f.feature_view_name).getD epoch, none⟩) := by
  induction feats with
  | nil => intro seen tsm _; rfl
  | cons f rest ih =>
    intro seen tsm hts
    rw [redis_requests]
    by_cases hseen : f.feature_view_name ∈ seen
    · rw [if_pos hseen, redis_rows_loop, hts _ hseen, List.map_cons,
        ih seen tsm hts]
      rfl
    · rw [if_neg hseen, redis_rows_loop, redis_rows_loop, List.map_cons]
      rw [if_pos rfl]
      rw [ih (f.feature_view_name :: seen) _ ?hinv]
      case hinv =>
        intro v hv
        rcases List.mem_cons.mp hv with h | h
        · subst h
          rw [if_pos rfl]
        · rw [if_neg ?hne]
          · exact hts v h
          · intro hvf
            subst hvf
            exact hseen h
      rfl

theorem rows_into_ok_mem (view : String) (l : List SqliteStoreRow) :
    ∀ out, rows_into_online_store_rows view l = .ok out →
      out.length = l.length ∧
      ∀ row ∈ out, ∃ sr ∈ l, try_into_online_store_row sr view = .ok row := by
  induction l with
  | nil =>
    intro out h
    simp only [rows_into_online_store_rows] at h
    cases h
    simp
  | cons sr rest ih =>
    intro out h
    simp only [rows_into_online_store_rows] at h
    obtain ⟨row0, hrow0, h2⟩ := Res.bind_eq_ok h
    obtain ⟨rs, hrs, h3⟩ := Res.bind_eq_ok h2
    cases h3
    obtain ⟨hlen, hmem⟩ := ih rs hrs
    constructor
    · simp [hlen]
    · intro row hrow
      rcases List.mem_cons.mp hrow with h | h
      · exact ⟨sr, by simp, h ▸ hrow0⟩
      · obtain ⟨sr2, hsr2, hok⟩ := hmem row h
        exact ⟨sr2, by simp [hsr2], hok⟩

/-- C8 (amended): the two adapters differ. The relational (sqlite)
adapter returns exactly one row per backend row matching a requested
`(key, feature)` pair and *omits* missing tuples (which the response
builder then marks `NotFound`); the Redis adapter instead returns one
row for *every* requested `(key, feature)` pair, carrying a null value
when the key or field is absent — such cells are marked `NullValue`,
not `NotFound`. -/
theorem c8_store_rows (key : EntityKey) (feats : List Feature)
    (valueOf : String → String → Option Value) (tsOf : String → Option Int)
    (view : String) (table_rows : List SqliteStoreRow) (keys : List (List Nat))
    (fnames : List String) (out : List OnlineStoreRow)
    (hq : sqlite_query_view (some table_rows) view keys fnames = .ok out) :
    redis_rows_for_key key feats valueOf tsOf =
      feats.map (fun f => ⟨f.feature_view_name, key, f.feature_name,
        (valueOf f.feature_view_name f.feature_name).getD ⟨none⟩,
        (tsOf f.feature_view_name).getD epoch, none⟩) ∧
    out.length = (table_rows.filter (fun r => keys.contains r.entity_key ∧
      fnames.contains r.feature_name)).length ∧
    ∀ row ∈ out, ∃ sr ∈ table_rows,
      keys.contains sr.entity_key = true ∧ fnames.contains sr.feature_name = true ∧
      try_into_online_store_row sr view = .ok row := by
  refine ⟨?_, ?_, ?_⟩
  · exact redis_rows_loop_requests key valueOf tsOf feats [] _ (by simp)
  · simp only [sqlite_query_view] at hq
    exact (rows_into_ok_mem view _ out hq).1
  · simp only [sqlite_query_view] at hq
    intro row hrow
    obtain ⟨sr, hsr, hok⟩ := (rows_into_ok_mem view _ out hq).2 row hrow
    rw [List.mem_filter] at hsr
    refine ⟨sr, hsr.1, ?_, ?_, hok⟩
    · have := hsr.2
      simp only [decide_eq_true_eq] at this
      exact this.1
    · have := hsr.2
      simp only [decide_eq_true_eq] at this
      exact this.2

/-- C8 counterexample: for a Redis hash that contains neither the
requested feature's field nor the view timestamp, the adapter does
*not* omit the row — it returns a row with a null value, which the
status rule classifies as `NullValue`, not `NotFound`. -/
theorem c8_redis_null_row_for_missing_field :
    redis_rows_for_key ⟨["e"], [⟨some (.int64Val 1)⟩]⟩ [⟨"v", "x"⟩]
      (fun _ _ => none) (fun _ => none) =
      [⟨"v", ⟨["e"], [⟨some (.int64Val 1)⟩]⟩, "x", ⟨none⟩, epoch, none⟩] ∧
    get_feature_status 0 ⟨none⟩ none epoch = .nullValue := by
  decide

/-- C8 witness: the amended statement at one Redis key with one
present and one absent feature, and a one-row sqlite table queried for
a present and an absent key. -/
theorem c8_store_rows_witness :
    redis_rows_for_key ⟨["driver_id"], [⟨some (.int64Val 1005)⟩]⟩
        [⟨"dhs", "conv_rate"⟩, ⟨"dhs", "acc_rate"⟩]
        (fun v f => if v = "dhs" ∧ f = "conv_rate" then some ⟨some (.int64Val 9)⟩ else none)
        (fun v => if v = "dhs" then some 77 else none) =
      [⟨"dhs", ⟨["driver_id"], [⟨some (.int64Val 1005)⟩]⟩, "conv_rate",
        ⟨some (.int64Val 9)⟩, 77, none⟩,
       ⟨"dhs", ⟨["driver_id"], [⟨some (.int64Val 1005)⟩]⟩, "acc_rate", ⟨none⟩, 77, none⟩] ∧
    ([⟨"dhs", ⟨["driver_id"], [⟨some (.int64Val 1005)⟩]⟩, "conv_rate",
        ⟨some (.int64Val 9)⟩, 50, some 60⟩] : List OnlineStoreRow).length =
      (([⟨[1, 0, 0, 0, 2, 0, 0, 0, 9, 0, 0, 0,
        100, 114, 105, 118, 101, 114, 95, 105, 100,
        4, 0, 0, 0, 8, 0, 0, 0, 0xED, 3, 0, 0, 0, 0, 0, 0], "conv_rate",
        ⟨some (.int64Val 9)⟩, 50, 60⟩] : List SqliteStoreRow).filter
        (fun r => ([[1, 0, 0, 0, 2, 0, 0, 0, 9, 0, 0, 0,
          100, 114, 105, 118, 101, 114, 95, 105, 100,
          4, 0, 0, 0, 8, 0, 0, 0, 0xED, 3, 0, 0, 0, 0, 0, 0]] :
            List (List Nat)).contains r.entity_key ∧
          (["conv_rate"] : List String).contains r.feature_name)).length ∧
    ∀ row ∈ ([⟨"dhs", ⟨["driver_id"], [⟨some (.int64Val 1005)⟩]⟩, "conv_rate",
        ⟨some (.int64Val 9)⟩, 50, some 60⟩] : List OnlineStoreRow),
      ∃ sr ∈ ([⟨[1, 0, 0, 0, 2, 0, 0, 0, 9, 0, 0, 0,
        100, 114, 105, 118, 101, 114, 95, 105, 100,
        4, 0, 0, 0, 8, 0, 0, 0, 0xED, 3, 0, 0, 0, 0, 0, 0], "conv_rate",
        ⟨some (.int64Val 9)⟩, 50, 60⟩] : List SqliteStoreRow),
        ([[1, 0, 0, 0, 2, 0, 0, 0, 9, 0, 0, 0,
          100, 114, 105, 118, 101, 114, 95, 105, 100,
          4, 0, 0, 0, 8, 0, 0, 0, 0xED, 3, 0, 0, 0, 0, 0, 0]] :
            List (List Nat)).contains sr.entity_key = true ∧
        (["conv_rate"] : List String).contains sr.feature_name = true ∧
        try_into_online_store_row sr "dhs" = .ok row := by
  have h := c8_store_rows ⟨["driver_id"], [⟨some (.int64Val 1005)⟩]⟩
    [⟨"dhs", "conv_rate"⟩, ⟨"dhs", "acc_rate"⟩]
    (fun v f => if v = "dhs" ∧ f = "conv_rate" then some ⟨some (.int64Val 9)⟩ else none)
    (fun v => if v = "dhs" then some 77 else none)
    "dhs"
    [⟨[1, 0, 0, 0, 2, 0, 0, 0, 9, 0, 0, 0,
      100, 114, 105, 118, 101, 114, 95, 105, 100,
      4, 0, 0, 0, 8, 0, 0, 0, 0xED, 3, 0, 0, 0, 0, 0, 0], "conv_rate",
      ⟨some (.int64Val 9)⟩, 50, 60⟩]
    [[1, 0, 0, 0, 2, 0, 0, 0, 9, 0, 0, 0,
      100, 114, 105, 118, 101, 114, 95, 105, 100,
      4, 0, 0, 0, 8, 0, 0, 0, 0xED, 3, 0, 0, 0, 0, 0, 0]]
    ["conv_rate"]
    [⟨"dhs", ⟨["driver_id"], [⟨some (.int64Val 1005)⟩]⟩, "conv_rate",
      ⟨some (.int64Val 9)⟩, 50, some 60⟩]
    (by decide)
  exact ⟨by rw [h.1]; decide, h.2.1, h.2.2⟩

/-! ## Claim C1 : codec round trip -/

/-- C1 counterexample: the round trip fails on the claim's own domain.
A `bytes` value serialises under the `BYTES` tag (1) but the
deserialiser accepts raw byte payloads only under `BYTES_LIST` (11),
so decode(encode(k)) errors; and duplicate join-key names collapse in
the encoder's `HashMap`, so the decoded key's *(name, value)* multiset
differs from the original's. -/
theorem c1_round_trip_fails_on_bytes_and_duplicates :
    Res.bind (serialize_key ⟨["a"], [⟨some (.bytesVal [7])⟩]⟩ .v3)
      (fun bs => deserialize_key bs .v3) = .err (.unsupportedSerializedType 1) ∧
    Res.bind (serialize_key ⟨["b", "b"], [⟨some (.int64Val 1)⟩, ⟨some (.int64Val 2)⟩]⟩ .v3)
      (fun bs => deserialize_key bs .v3) = .ok ⟨["b"], [⟨some (.int64Val 2)⟩]⟩ ∧
    ¬ List.Perm ((["b"] : List String).zip [(⟨some (.int64Val 2)⟩ : Value)])
      ((["b", "b"] : List String).zip
        [(⟨some (.int64Val 1)⟩ : Value), ⟨some (.int64Val 2)⟩]) := by
  refine ⟨by decide, by decide, by decide⟩

/-- C1 witness: the amended round trip at the repository's own test
key `{driver_id: int64(1005)}`. -/
theorem serialize_deserialize_key_witness :
    ∃ bs k2, serialize_key ⟨["driver_id"], [⟨some (.int64Val 1005)⟩]⟩ .v3 = .ok bs ∧
      deserialize_key bs .v3 = .ok k2 ∧
      List.Perm (k2.join_keys.zip k2.entity_values)
        ((["driver_id"] : List String).zip [(⟨some (.int64Val 1005)⟩ : Value)]) :=
  serialize_deserialize_key ["driver_id"] [⟨some (.int64Val 1005)⟩] rfl (by decide)
    (by decide) (by decide)
    (fun v hv => by
      rw [List.mem_singleton] at hv
      subst hv
      exact ⟨.int64Val 1005, rfl, by norm_num [SupVal]⟩)

/-! ## Claim C10 : composite keys rejected in response building -/

theorem row_group_entry_bad {now : Int} {fvs : String → Option FeatureView}
    {lm : EntityColumnRef → Option String} {row : OnlineStoreRow}
    (hbad : row.entity_key.join_keys.length ≠ 1 ∨
      row.entity_key.entity_values.length ≠ 1) :
    row_group_entry now fvs lm row = .err .invalidEntityKeyRow := by
  rw [row_group_entry, if_pos hbad]
  rfl

theorem row_group_entry_not_invalid {now : Int} {fvs : String → Option FeatureView}
    {lm : EntityColumnRef → Option String} {row : OnlineStoreRow}
    (hgood : row.entity_key.join_keys.length = 1 ∧
      row.entity_key.entity_values.length = 1) :
    row_group_entry now fvs lm row ≠ .err .invalidEntityKeyRow := by
  rw [row_group_entry, if_neg (by omega)]
  split
  · simp
  · split
    · simp
    · split
      · simp
      · split
        · simp [Res.fail]
        · rename_i u _
          cases u <;> simp [val_to_entity_id_value, Res.bind, Res.fail]

theorem group_rows_aux_not_ok_of_bad {now : Int} {fvs : String → Option FeatureView}
    {lm : EntityColumnRef → Option String} :
    ∀ (rows : List OnlineStoreRow) (m : RequestEntityIdKey → List ResponseFeatureRow),
      (∃ row ∈ rows, row.entity_key.join_keys.length ≠ 1 ∨
        row.entity_key.entity_values.length ≠ 1) →
      ∀ r, group_rows_aux now fvs lm rows m ≠ .ok r := by
  intro rows
  induction rows with
  | nil =>
    intro m h r
    obtain ⟨row, hrow, _⟩ := h
    simp at hrow
  | cons row rest ih =>
    intro m h r
    rw [group_rows_aux]
    obtain ⟨brow, hbrow, hbad⟩ := h
    rcases List.mem_cons.mp hbrow with hb | hb
    · subst hb
      rw [row_group_entry_bad hbad]
      simp [Res.bind]
    · cases he : row_group_entry now fvs lm row with
      | ok e =>
        rw [Res.bind_ok]
        exact ih _ ⟨brow, hb, hbad⟩ r
      | err e => simp [Res.bind]
      | panic => simp [Res.bind]

theorem group_rows_aux_never_invalid {now : Int} {fvs : String → Option FeatureView}
    {lm : EntityColumnRef → Option String} :
    ∀ (rows : List OnlineStoreRow) (m : RequestEntityIdKey → List ResponseFeatureRow),
      (∀ r2 ∈ rows, r2.entity_key.join_keys.length = 1 ∧
        r2.entity_key.entity_values.length = 1) →
      group_rows_aux now fvs lm rows m ≠ .err .invalidEntityKeyRow := by
  intro rows
  induction rows with
  | nil =>
    intro m _
    simp [group_rows_aux]
  | cons row rest ih =>
    intro m hall
    rw [group_rows_aux]
    cases he : row_group_entry now fvs lm row with
    | ok e =>
      rw [Res.bind_ok]
      exact ih _ (fun r2 hr2 => hall r2 (by simp [hr2]))
    | err e =>
      rw [Res.bind_err]
      intro hc
      cases hc
      exact row_group_entry_not_invalid (hall row (by simp)) he
    | panic => simp [Res.bind]

theorem bind_ne_ok_of_ne_ok {α β : Type} {x : Res α} {f : α → Res β}
    (hx : ∀ a, x ≠ .ok a) : ∀ r, Res.bind x f ≠ .ok r := by
  intro r
  cases x with
  | ok a => exact absurd rfl (hx a)
  | err e => simp [Res.bind]
  | panic => simp [Res.bind]

/-- C10: for every store row whose decoded entity key has more than
one (or zero) join keys or entity values, building the response fails
(no response is produced); rows with exactly one join key and one
value never trigger that error; and the codec itself accepts composite
keys (`serialize_key` succeeds on a two-column key). -/
theorem c10_composite_keys (now : Int) (fvs : String → Option FeatureView)
    (lm : EntityColumnRef → Option String) (ek : List (String × List EntityIdValue))
    (fs : List Feature) (ffn : Bool) (rows : List OnlineStoreRow) (row : OnlineStoreRow)
    (hmem : row ∈ rows)
    (hbad : row.entity_key.join_keys.length ≠ 1 ∨
      row.entity_key.entity_values.length ≠ 1) :
    (∀ resp, try_from ek rows fvs lm fs ffn now ≠ .ok resp) ∧
    (∀ rows2 : List OnlineStoreRow,
      (∀ r2 ∈ rows2, r2.entity_key.join_keys.length = 1 ∧
        r2.entity_key.entity_values.length = 1) →
      group_rows now rows2 fvs lm ≠ .err .invalidEntityKeyRow) ∧
    (∃ bs, serialize_key ⟨["a", "b"], [⟨some (.int64Val 1)⟩, ⟨some (.int64Val 2)⟩]⟩ .v3 =
      .ok bs) := by
  refine ⟨?_, ?_, ⟨_, rfl⟩⟩
  · intro resp
    rw [try_from]
    exact bind_ne_ok_of_ne_ok
      (group_rows_aux_not_ok_of_bad rows _ ⟨row, hmem, hbad⟩) resp
  · intro rows2 hall
    exact group_rows_aux_never_invalid rows2 _ hall

/-- C10 witness: the theorem applied to a batch containing one row
with a two-column entity key. -/
theorem c10_composite_keys_witness :
    (∀ resp, try_from [("e", [.int 1])]
      [⟨"v", ⟨["a", "b"], [⟨some (.int64Val 1)⟩, ⟨some (.int64Val 2)⟩]⟩, "f",
        ⟨some (.int64Val 3)⟩, 0, none⟩]
      (fun _ => none) (fun _ => none) [] false 0 ≠ .ok resp) ∧
    (∀ rows2 : List OnlineStoreRow,
      (∀ r2 ∈ rows2, r2.entity_key.join_keys.length = 1 ∧
        r2.entity_key.entity_values.length = 1) →
      group_rows 0 rows2 (fun _ => none) (fun _ => none) ≠ .err .invalidEntityKeyRow) ∧
    (∃ bs, serialize_key ⟨["a", "b"], [⟨some (.int64Val 1)⟩, ⟨some (.int64Val 2)⟩]⟩ .v3 =
      .ok bs) :=
  c10_composite_keys 0 (fun _ => none) (fun _ => none) [("e", [.int 1])] [] false
    [⟨"v", ⟨["a", "b"], [⟨some (.int64Val 1)⟩, ⟨some (.int64Val 2)⟩]⟩, "f",
      ⟨some (.int64Val 3)⟩, 0, none⟩]
    ⟨"v", ⟨["a", "b"], [⟨some (.int64Val 1)⟩, ⟨some (.int64Val 2)⟩]⟩, "f",
      ⟨some (.int64Val 3)⟩, 0, none⟩
    (by simp) (by decide)

theorem group_rows_aux_char {now : Int} {fvs : String → Option FeatureView}
    {lm : EntityColumnRef → Option String} :
    ∀ (rows : List OnlineStoreRow),
      (∀ row ∈ rows, ∃ e, row_group_entry now fvs lm row = .ok e) →
      ∀ m, group_rows_aux now fvs lm rows m =
        .ok (fun k => m k ++ group_proj now fvs lm rows k) := by
  intro rows
  induction rows with
  | nil =>
    intro _ m
    rw [group_rows_aux]
    congr 1
    funext k
    simp [group_proj]
  | cons row rest ih =>
    intro hwf m
    obtain ⟨e, he⟩ := hwf row (by simp)
    rw [group_rows_aux, he, Res.bind_ok,
      ih (fun r2 hr2 => hwf r2 (by simp [hr2])) _]
    congr 1
    funext k
    simp only [group_proj, List.filterMap_cons, he]
    by_cases hk : e.1 = k
    · subst hk
      simp [group_proj, List.append_assoc]
    · have hk2 : ¬ k = e.1 := fun h => hk h.symm
      simp [group_proj, hk, hk2]

/-- C7 counterexample: the response depends on the arrival order of
rows *within* one request-entity group. Two rows for the same entity
value but different features produce different feature-column orders
(and hence different responses) under the two arrival orders. -/
theorem c7_row_order_changes_response :
    try_from [("e", [.int 1])]
      [⟨"v", ⟨["e"], [⟨some (.int64Val 1)⟩]⟩, "f1", ⟨some (.int64Val 10)⟩, 0, none⟩,
       ⟨"v", ⟨["e"], [⟨some (.int64Val 1)⟩]⟩, "f2", ⟨some (.int64Val 20)⟩, 0, none⟩]
      (fun _ => none) (fun r => if r = ⟨"v", "e"⟩ then some "e" else none)
      [⟨"v", "f1"⟩, ⟨"v", "f2"⟩] false 0 ≠
    try_from [("e", [.int 1])]
      [⟨"v", ⟨["e"], [⟨some (.int64Val 1)⟩]⟩, "f2", ⟨some (.int64Val 20)⟩, 0, none⟩,
       ⟨"v", ⟨["e"], [⟨some (.int64Val 1)⟩]⟩, "f1", ⟨some (.int64Val 10)⟩, 0, none⟩]
      (fun _ => none) (fun r => if r = ⟨"v", "e"⟩ then some "e" else none)
      [⟨"v", "f1"⟩, ⟨"v", "f2"⟩] false 0 := by
  decide

/-- C7 (amended): the response builder is insensitive to the order of
store rows *across* request-entity groups but not within one: whenever
two row lists are grouped successfully and have identical per-group
row subsequences — in particular, under any permutation preserving the
relative order of rows that share a request entity id — the responses
are identical. -/
theorem c7_group_order_insensitive (now : Int) (fvs : String → Option FeatureView)
    (lm : EntityColumnRef → Option String) (ek : List (String × List EntityIdValue))
    (fs : List Feature) (ffn : Bool) (rows1 rows2 : List OnlineStoreRow)
    (hwf1 : ∀ row ∈ rows1, ∃ e, row_group_entry now fvs lm row = .ok e)
    (hwf2 : ∀ row ∈ rows2, ∃ e, row_group_entry now fvs lm row = .ok e)
    (heq : ∀ k, group_proj now fvs lm rows1 k = group_proj now fvs lm rows2 k) :
    try_from ek rows1 fvs lm fs ffn now = try_from ek rows2 fvs lm fs ffn now := by
  rw [try_from, try_from, group_rows, group_rows,
    group_rows_aux_char rows1 hwf1, group_rows_aux_char rows2 hwf2]
  have hfun : (fun k => (fun _ => ([] : List ResponseFeatureRow)) k ++
      group_proj now fvs lm rows1 k) =
      (fun k => (fun _ => ([] : List ResponseFeatureRow)) k ++
      group_proj now fvs lm rows2 k) := by
    funext k
    simp [heq k]
  rw [hfun]

/-- C7 witness: the amended statement applied to one concrete row list
(compared against itself, with equal projections). -/
theorem c7_group_order_insensitive_witness :
    try_from [("e", [.int 1])]
      [⟨"v", ⟨["e"], [⟨some (.int64Val 1)⟩]⟩, "f1", ⟨some (.int64Val 10)⟩, 0, none⟩]
      (fun _ => none) (fun r => if r = ⟨"v", "e"⟩ then some "e" else none)
      [⟨"v", "f1"⟩] false 0 =
    try_from [("e", [.int 1])]
      [⟨"v", ⟨["e"], [⟨some (.int64Val 1)⟩]⟩, "f1", ⟨some (.int64Val 10)⟩, 0, none⟩]
      (fun _ => none) (fun r => if r = ⟨"v", "e"⟩ then some "e" else none)
      [⟨"v", "f1"⟩] false 0 :=
  c7_group_order_insensitive 0 (fun _ => none)
    (fun r => if r = ⟨"v", "e"⟩ then some "e" else none) [("e", [.int 1])]
    [⟨"v", "f1"⟩] false
    [⟨"v", ⟨["e"], [⟨some (.int64Val 1)⟩]⟩, "f1", ⟨some (.int64Val 10)⟩, 0, none⟩]
    [⟨"v", ⟨["e"], [⟨some (.int64Val 1)⟩]⟩, "f1", ⟨some (.int64Val 10)⟩, 0, none⟩]
    (fun row hr => by
      rw [List.mem_singleton] at hr
      subst hr
      exact ⟨_, rfl⟩)
    (fun row hr => by
      rw [List.mem_singleton] at hr
      subst hr
      exact ⟨_, rfl⟩)
    (fun k => rfl)

theorem pushCell_eq {rs : List FeatureResults} {idx : Nat} (v : Value)
    (st : FeatureStatus) (ts : Int) (h : idx < rs.length) :
    pushCell rs idx v st ts = .ok (rs.set idx
      ⟨rs[idx].values ++ [v], rs[idx].statuses ++ [st],
        rs[idx].event_timestamps ++ [ts]⟩) := by
  have hg : rs.get? idx = some rs[idx] := by
    rw [List.get?_eq_getElem?]
    exact List.getElem?_eq_getElem h
  unfold pushCell
  rw [hg]

theorem pushCell_aligned {rs : List FeatureResults} {idx : Nat} (v : Value)
    (st : FeatureStatus) (ts : Int) (h : idx < rs.length) (hA : Aligned rs) :
    Aligned (rs.set idx ⟨rs[idx].values ++ [v], rs[idx].statuses ++ [st],
      rs[idx].event_timestamps ++ [ts]⟩) := by
  intro fr hfr
  rcases List.mem_or_eq_of_mem_set hfr with hm | heq
  · exact hA fr hm
  · subst heq
    have hmem : rs[idx] ∈ rs := List.getElem_mem h
    obtain ⟨h1, h2⟩ := hA _ hmem
    exact ⟨by simp [h1], by simp [h2]⟩

theorem lookupFeatureIdx_mem {l : List (Feature × Nat)} {f : Feature} {i : Nat}
    (h : lookupFeatureIdx l f = some i) : ∃ p ∈ l, p.2 = i := by
  induction l with
  | nil => simp [lookupFeatureIdx] at h
  | cons p t ih =>
    obtain ⟨pf, pj⟩ := p
    simp only [lookupFeatureIdx] at h
    by_cases hc : pf = f
    · rw [if_pos hc] at h
      injection h with h2
      exact ⟨(pf, pj), List.mem_cons_self _ _, h2⟩
    · rw [if_neg hc] at h
      obtain ⟨q, hq, hqi⟩ := ih h
      exact ⟨q, List.mem_cons_of_mem _ hq, hqi⟩

theorem with_entity_key_name_post {b : Builder} (s : String) (hGS : GroupStart b) :
    PostName (with_entity_key_name b s) ∧
    (with_entity_key_name b s).results = b.results := by
  obtain ⟨h1, h2, h3, h4⟩ := hGS
  unfold with_entity_key_name
  rw [if_pos (by omega)]
  refine ⟨⟨?_, h2, h3, h4⟩, rfl⟩
  simp only [List.length_append, List.length_cons, List.length_nil]
  omega

theorem add_entity_value_spec {b : Builder} (v : EntityIdValue)
    (h : PostName b ∨ InGroup b) (hA : Aligned b.results) :
    ∃ b', add_entity_value b v = .ok b' ∧ InGroup b' ∧ Aligned b'.results := by
  obtain ⟨L, hLif, hfeat, hnext, hcur, hmap, hAL⟩ : ∃ L,
      (if b.results.length ≤ b.current_entity_idx then
        { b with results := b.results ++ [⟨[], [], []⟩] }
      else b) = { b with results := L } ∧
      b.features.length = L.length ∧ b.next_feature_idx = L.length ∧
      b.current_entity_idx < L.length ∧
      (∀ pr ∈ b.feature_to_idx, pr.2 < L.length) ∧ Aligned L := by
    rcases h with hPN | hIG
    · obtain ⟨h1, h2, h3, h4⟩ := hPN
      refine ⟨b.results ++ [⟨[], [], []⟩], if_pos (le_of_eq h2.symm),
        ?_, ?_, ?_, ?_, ?_⟩
      · simp only [List.length_append, List.length_cons, List.length_nil]
        omega
      · simp only [List.length_append, List.length_cons, List.length_nil]
        omega
      · simp only [List.length_append, List.length_cons, List.length_nil]
        omega
      · intro pr hpr
        have := h4 pr hpr
        simp only [List.length_append, List.length_cons, List.length_nil]
        omega
      · intro fr hfr
        rcases List.mem_append.mp hfr with hm | hm
        · exact hA fr hm
        · rw [List.mem_singleton] at hm
          subst hm
          exact ⟨rfl, rfl⟩
    · obtain ⟨h1, h2, h3, h4⟩ := hIG
      refine ⟨b.results, if_neg (by omega), h1, h2, by omega, ?_, hA⟩
      intro pr hpr
      have := h4 pr hpr
      omega
  simp only [add_entity_value, hLif]
  rw [pushCell_eq _ _ _ hcur]
  simp only [Res.bind_ok]
  refine ⟨_, rfl, ⟨?_, ?_, ?_, ?_⟩, ?_⟩
  · show b.features.length = (L.set b.current_entity_idx _).length
    rw [List.length_set]
    exact hfeat
  · show b.next_feature_idx = (L.set b.current_entity_idx _).length
    rw [List.length_set]
    exact hnext
  · show b.current_entity_idx < b.next_feature_idx
    omega
  · intro pr hpr
    have := hmap pr hpr
    show pr.2 < b.next_feature_idx
    omega
  · exact pushCell_aligned _ _ _ hcur hAL

theorem add_feature_value_spec {b : Builder} (f : Feature) (v : Value)
    (st : FeatureStatus) (ts : Int) (hIG : InGroup b) (hA : Aligned b.results) :
    ∃ b', add_feature_value b f v st ts = .ok b' ∧ InGroup b' ∧
      Aligned b'.results := by
  obtain ⟨h1, h2, h3, h4⟩ := hIG
  cases hlk : lookupFeatureIdx b.feature_to_idx f with
  | some idx =>
    obtain ⟨p, hp, hpi⟩ := lookupFeatureIdx_mem hlk
    have hidx : idx < b.results.length := by
      have := h4 p hp
      omega
    simp only [add_feature_value, hlk]
    rw [if_neg (by omega), pushCell_eq _ _ _ hidx]
    simp only [Res.bind_ok]
    refine ⟨_, rfl, ⟨?_, ?_, h3, fun pr hpr => h4 pr hpr⟩, ?_⟩
    · show b.features.length = (b.results.set idx _).length
      rw [List.length_set]
      exact h1
    · show b.next_feature_idx = (b.results.set idx _).length
      rw [List.length_set]
      exact h2
    · exact pushCell_aligned _ _ _ hidx hA
  | none =>
    have hlen : b.next_feature_idx <
        (b.results ++ [(⟨[], [], []⟩ : FeatureResults)]).length := by
      simp only [List.length_append, List.length_cons, List.length_nil]
      omega
    have hAext : Aligned (b.results ++ [(⟨[], [], []⟩ : FeatureResults)]) := by
      intro fr hfr
      rcases List.mem_append.mp hfr with hm | hm
      · exact hA fr hm
      · rw [List.mem_singleton] at hm
        subst hm
        exact ⟨rfl, rfl⟩
    simp only [add_feature_value, hlk]
    rw [if_pos (show b.results.length ≤ b.next_feature_idx from le_of_eq h2.symm),
      pushCell_eq _ _ _ hlen]
    simp only [Res.bind_ok]
    refine ⟨_, rfl, ⟨?_, ?_, ?_, ?_⟩, ?_⟩
    · show (b.features ++ [_]).length =
        ((b.results ++ [(⟨[], [], []⟩ : FeatureResults)]).set _ _).length
      rw [List.length_set]
      simp only [List.length_append, List.length_cons, List.length_nil]
      omega
    · show b.next_feature_idx + 1 =
        ((b.results ++ [(⟨[], [], []⟩ : FeatureResults)]).set _ _).length
      rw [List.length_set]
      simp only [List.length_append, List.length_cons, List.length_nil]
      omega
    · show b.current_entity_idx < b.next_feature_idx + 1
      omega
    · intro pr hpr
      show pr.2 < b.next_feature_idx + 1
      rcases List.mem_cons.mp hpr with heq | hm
      · rw [heq]
        exact Nat.lt_succ_self _
      · have := h4 pr hm
        omega
    · exact pushCell_aligned _ _ _ hlen hAext

theorem padTo_aligned {fr : FeatureResults} (h : frAligned fr) (idx : Nat) :
    frAligned (padTo fr idx) := by
  obtain ⟨h1, h2⟩ := h
  refine ⟨?_, ?_⟩
  · simp only [padTo, List.length_append, List.length_replicate]
    omega
  · simp only [padTo, List.length_append, List.length_replicate]
    omega

theorem add_missing_keys_spec {b : Builder} (hIG : InGroup b)
    (hA : Aligned b.results) :
    InGroup (add_missing_keys b) ∧ Aligned (add_missing_keys b).results := by
  obtain ⟨h1, h2, h3, h4⟩ := hIG
  refine ⟨⟨?_, ?_, h3, fun pr hpr => h4 pr hpr⟩, ?_⟩
  · simpa [add_missing_keys] using h1
  · simpa [add_missing_keys] using h2
  · intro fr hfr
    simp only [add_missing_keys, List.mem_map] at hfr
    obtain ⟨fr0, hfr0, heq⟩ := hfr
    subst heq
    exact padTo_aligned (hA fr0 hfr0) _

theorem process_rows_spec (rows : List ResponseFeatureRow) :
    ∀ {b : Builder} {fs : List Feature}, InGroup b → Aligned b.results →
    ∃ b' fs', process_rows b fs rows = .ok (b', fs') ∧ InGroup b' ∧
      Aligned b'.results := by
  induction rows with
  | nil =>
    intro b fs hIG hA
    exact ⟨b, fs, rfl, hIG, hA⟩
  | cons r rest ih =>
    intro b fs hIG hA
    obtain ⟨b2, hb2, hIG2, hA2⟩ :=
      add_feature_value_spec r.feature r.value r.status r.event_ts hIG hA
    simp only [process_rows]
    rw [hb2]
    simp only [Res.bind_ok]
    exact ih hIG2 hA2

theorem process_keys_spec (name : String) (keys : List EntityIdValue) :
    ∀ {b : Builder} {g : RequestEntityIdKey → List ResponseFeatureRow}
      {fs : List Feature}, InGroup b → Aligned b.results →
    ∃ b' g' fs', process_keys name keys b g fs = .ok (b', g', fs') ∧
      InGroup b' ∧ Aligned b'.results := by
  induction keys with
  | nil =>
    intro b g fs hIG hA
    exact ⟨b, g, fs, rfl, hIG, hA⟩
  | cons key rest ih =>
    intro b g fs hIG hA
    obtain ⟨b1, hb1, hIG1, hA1⟩ := add_entity_value_spec key (Or.inr hIG) hA
    obtain ⟨b2, fs2, hb2, hIG2, hA2⟩ :=
      process_rows_spec (g ⟨name, key⟩) hIG1 hA1
    simp only [process_keys]
    rw [hb1]
    simp only [Res.bind_ok]
    rw [hb2]
    simp only [Res.bind_ok]
    obtain ⟨hIG3, hA3⟩ := add_missing_keys_spec hIG2 hA2
    exact ih hIG3 hA3

theorem process_keys_spec_post (name : String) (keys : List EntityIdValue)
    {b : Builder} {g : RequestEntityIdKey → List ResponseFeatureRow}
    {fs : List Feature} (hPN : PostName b) (hA : Aligned b.results)
    (hne : keys ≠ []) :
    ∃ b' g' fs', process_keys name keys b g fs = .ok (b', g', fs') ∧
      InGroup b' ∧ Aligned b'.results := by
  match keys with
  | [] => exact absurd rfl hne
  | key :: rest =>
    obtain ⟨b1, hb1, hIG1, hA1⟩ := add_entity_value_spec key (Or.inl hPN) hA
    obtain ⟨b2, fs2, hb2, hIG2, hA2⟩ :=
      process_rows_spec (g ⟨name, key⟩) hIG1 hA1
    simp only [process_keys]
    rw [hb1]
    simp only [Res.bind_ok]
    rw [hb2]
    simp only [Res.bind_ok]
    obtain ⟨hIG3, hA3⟩ := add_missing_keys_spec hIG2 hA2
    exact process_keys_spec name rest hIG3 hA3

theorem next_entity_group_start {b : Builder} (hIG : InGroup b) :
    GroupStart (next_entity b) := by
  obtain ⟨h1, h2, h3, h4⟩ := hIG
  refine ⟨h1, h2, ?_, ?_⟩
  · show b.next_feature_idx + 1 = b.results.length + 1
    omega
  · intro pr hpr
    have := h4 pr hpr
    show pr.2 < b.results.length
    omega

theorem process_entities_spec (ents : List (String × List EntityIdValue)) :
    ∀ {b : Builder} {g : RequestEntityIdKey → List ResponseFeatureRow}
      {fs : List Feature}, GroupStart b → Aligned b.results →
      (∀ p ∈ ents, p.2 ≠ []) →
    ∃ b' g' fs', process_entities ents b g fs = .ok (b', g', fs') ∧
      GroupStart b' ∧ Aligned b'.results := by
  induction ents with
  | nil =>
    intro b g fs hGS hA _
    exact ⟨b, g, fs, rfl, hGS, hA⟩
  | cons p rest ih =>
    intro b g fs hGS hA hne
    obtain ⟨name, keys⟩ := p
    obtain ⟨hPN, hres⟩ := with_entity_key_name_post (b := b) name hGS
    have hA1 : Aligned (with_entity_key_name b name).results := by
      rw [hres]
      exact hA
    obtain ⟨b1, g1, fs1, hpk, hIG1, hA2⟩ := process_keys_spec_post name keys hPN hA1
      (hne (name, keys) (List.mem_cons_self _ _))
    simp only [process_entities]
    rw [hpk]
    simp only [Res.bind_ok]
    exact ih (next_entity_group_start hIG1) hA2
      (fun q hq => hne q (List.mem_cons_of_mem _ hq))

theorem builder_foldl_keeps {σ : Type} (P : Builder → Prop)
    (step : Builder → σ → Builder) (hstep : ∀ b x, P b → P (step b x)) :
    ∀ (l : List σ) (b : Builder), P b → P (l.foldl step b) := by
  intro l
  induction l with
  | nil => exact fun b h => h
  | cons x t ih => exact fun b h => ih (step b x) (hstep b x h)

theorem add_entity_less_keeps (rows : List ResponseFeatureRow) (b : Builder)
    (h : b.features.length = b.results.length) (hA : Aligned b.results) :
    (add_entity_less_features b rows).features.length =
      (add_entity_less_features b rows).results.length ∧
    Aligned (add_entity_less_features b rows).results := by
  unfold add_entity_less_features
  split
  · exact ⟨h, hA⟩
  · refine builder_foldl_keeps
      (fun b2 => b2.features.length = b2.results.length ∧ Aligned b2.results) _
      ?_ rows b ⟨h, hA⟩
    intro b2 row hP
    refine ⟨?_, ?_⟩
    · show (b2.features ++ [_]).length = (b2.results ++ [_]).length
      have := hP.1
      simp only [List.length_append, List.length_cons, List.length_nil]
      omega
    · intro fr hfr
      rcases List.mem_append.mp hfr with hm | hm
      · exact hP.2 fr hm
      · rw [List.mem_singleton] at hm
        subst hm
        exact ⟨by simp, by simp⟩

theorem add_missing_features_keeps (l : List Feature) (b : Builder)
    (h : b.features.length = b.results.length) (hA : Aligned b.results) :
    (add_missing_features b l).features.length =
      (add_missing_features b l).results.length ∧
    Aligned (add_missing_features b l).results := by
  unfold add_missing_features
  refine builder_foldl_keeps
    (fun b2 => b2.features.length = b2.results.length ∧ Aligned b2.results) _
    ?_ l b ⟨h, hA⟩
  intro b2 f hP
  refine ⟨?_, ?_⟩
  · show (b2.features ++ [_]).length = (b2.results ++ [_]).length
    have := hP.1
    simp only [List.length_append, List.length_cons, List.length_nil]
    omega
  · intro fr hfr
    rcases List.mem_append.mp hfr with hm | hm
    · exact hP.2 fr hm
    · rw [List.mem_singleton] at hm
      subst hm
      exact ⟨by simp, by simp⟩

theorem append_empty_aligned {rs : List FeatureResults} (hA : Aligned rs) :
    Aligned (rs ++ [⟨[], [], []⟩]) := by
  intro fr hfr
  rcases List.mem_append.mp hfr with hm | hm
  · exact hA fr hm
  · rw [List.mem_singleton] at hm
    subst hm
    exact ⟨rfl, rfl⟩

theorem pushCell_ok_aligned {rs rs' : List FeatureResults} {idx : Nat} {v : Value}
    {st : FeatureStatus} {ts : Int} (h : pushCell rs idx v st ts = .ok rs')
    (hA : Aligned rs) : Aligned rs' := by
  cases hg : rs.get? idx with
  | none =>
    simp only [pushCell, hg] at h
    exact absurd h (by simp)
  | some fr =>
    simp only [pushCell, hg] at h
    injection h with h2
    subst h2
    intro fr2 hfr2
    rcases List.mem_or_eq_of_mem_set hfr2 with hm | heq
    · exact hA fr2 hm
    · subst heq
      obtain ⟨h1, h2⟩ := hA fr (List.get?_mem hg)
      exact ⟨by simp [h1], by simp [h2]⟩

theorem add_entity_value_ok_aligned {b b' : Builder} {v : EntityIdValue}
    (h : add_entity_value b v = .ok b') (hA : Aligned b.results) :
    Aligned b'.results := by
  simp only [add_entity_value] at h
  obtain ⟨rs', hps, h2⟩ := Res.bind_eq_ok h
  injection h2 with h3
  subst h3
  refine pushCell_ok_aligned hps ?_
  by_cases hc : b.results.length ≤ b.current_entity_idx
  · rw [if_pos hc]
    exact append_empty_aligned hA
  · rw [if_neg hc]
    exact hA

theorem add_feature_value_ok_aligned {b b' : Builder} {f : Feature} {v : Value}
    {st : FeatureStatus} {ts : Int} (h : add_feature_value b f v st ts = .ok b')
    (hA : Aligned b.results) : Aligned b'.results := by
  cases hlk : lookupFeatureIdx b.feature_to_idx f with
  | some idx =>
    simp only [add_feature_value, hlk] at h
    by_cases hc : b.results.length ≤ idx
    · rw [if_pos hc] at h
      obtain ⟨rs', hps, h2⟩ := Res.bind_eq_ok h
      injection h2 with h3
      subst h3
      exact pushCell_ok_aligned hps (append_empty_aligned hA)
    · rw [if_neg hc] at h
      obtain ⟨rs', hps, h2⟩ := Res.bind_eq_ok h
      injection h2 with h3
      subst h3
      exact pushCell_ok_aligned hps hA
  | none =>
    simp only [add_feature_value, hlk] at h
    by_cases hc : b.results.length ≤ b.next_feature_idx
    · rw [if_pos hc] at h
      obtain ⟨rs', hps, h2⟩ := Res.bind_eq_ok h
      injection h2 with h3
      subst h3
      exact pushCell_ok_aligned hps (append_empty_aligned hA)
    · rw [if_neg hc] at h
      obtain ⟨rs', hps, h2⟩ := Res.bind_eq_ok h
      injection h2 with h3
      subst h3
      exact pushCell_ok_aligned hps hA

theorem process_rows_ok_aligned (rows : List ResponseFeatureRow) :
    ∀ {b : Builder} {fs : List Feature} {p : Builder × List Feature},
    process_rows b fs rows = .ok p → Aligned b.results → Aligned p.1.results := by
  induction rows with
  | nil =>
    intro b fs p h hA
    injection h with h2
    subst h2
    exact hA
  | cons r rest ih =>
    intro b fs p h hA
    simp only [process_rows] at h
    obtain ⟨b2, hb2, h2⟩ := Res.bind_eq_ok h
    exact ih h2 (add_feature_value_ok_aligned hb2 hA)

theorem process_keys_ok_aligned (name : String) (keys : List EntityIdValue) :
    ∀ {b : Builder} {g : RequestEntityIdKey → List ResponseFeatureRow}
      {fs : List Feature}
      {r : Builder × (RequestEntityIdKey → List ResponseFeatureRow) × List Feature},
    process_keys name keys b g fs = .ok r → Aligned b.results →
    Aligned r.1.results := by
  induction keys with
  | nil =>
    intro b g fs r h hA
    injection h with h2
    subst h2
    exact hA
  | cons key rest ih =>
    intro b g fs r h hA
    simp only [process_keys] at h
    obtain ⟨b1, hb1, h2⟩ := Res.bind_eq_ok h
    obtain ⟨r2, hr2, h3⟩ := Res.bind_eq_ok h2
    have hA1 := add_entity_value_ok_aligned hb1 hA
    have hA2 : Aligned r2.1.results := process_rows_ok_aligned _ hr2 hA1
    have hA3 : Aligned (add_missing_keys r2.1).results := by
      intro fr hfr
      simp only [add_missing_keys, List.mem_map] at hfr
      obtain ⟨fr0, hfr0, heq⟩ := hfr
      subst heq
      exact padTo_aligned (hA2 fr0 hfr0) _
    exact ih h3 hA3

theorem process_entities_ok_aligned (ents : List (String × List EntityIdValue)) :
    ∀ {b : Builder} {g : RequestEntityIdKey → List ResponseFeatureRow}
      {fs : List Feature}
      {r : Builder × (RequestEntityIdKey → List ResponseFeatureRow) × List Feature},
    process_entities ents b g fs = .ok r → Aligned b.results →
    Aligned r.1.results := by
  induction ents with
  | nil =>
    intro b g fs r h hA
    injection h with h2
    subst h2
    exact hA
  | cons q rest ih =>
    intro b g fs r h hA
    obtain ⟨name, keys⟩ := q
    simp only [process_entities] at h
    obtain ⟨r1, hr1, h2⟩ := Res.bind_eq_ok h
    have hA0 : Aligned (with_entity_key_name b name).results := by
      unfold with_entity_key_name
      by_cases hc : b.features.length ≤ b.current_entity_idx
      · rw [if_pos hc]
        exact hA
      · rw [if_neg hc]
        exact hA
    exact ih h2 (process_keys_ok_aligned name keys hr1 hA0)

theorem add_entity_less_aligned (rows : List ResponseFeatureRow) (b : Builder)
    (hA : Aligned b.results) : Aligned (add_entity_less_features b rows).results := by
  unfold add_entity_less_features
  split
  · exact hA
  · refine builder_foldl_keeps (fun b2 => Aligned b2.results) _ ?_ rows b hA
    intro b2 row hP fr hfr
    rcases List.mem_append.mp hfr with hm | hm
    · exact hP fr hm
    · rw [List.mem_singleton] at hm
      subst hm
      exact ⟨by simp, by simp⟩

theorem add_missing_features_aligned (l : List Feature) (b : Builder)
    (hA : Aligned b.results) : Aligned (add_missing_features b l).results := by
  unfold add_missing_features
  refine builder_foldl_keeps (fun b2 => Aligned b2.results) _ ?_ l b hA
  intro b2 f hP fr hfr
  rcases List.mem_append.mp hfr with hm | hm
  · exact hP fr hm
  · rw [List.mem_singleton] at hm
    subst hm
    exact ⟨by simp, by simp⟩

/-- C3 counterexample: a request entity name with an *empty* value
vector pushes its column name but never creates its results column, so
the emitted response has `1` feature name and `0` result columns. -/
theorem c3_empty_entity_vector_misaligns :
    try_from [("e", [])] [] (fun _ => none) (fun _ => none) [] false 0 =
      .ok ⟨["e"], []⟩ ∧
    ¬ ((⟨["e"], []⟩ : GetOnlineFeatureResponse).feature_names.length =
      (⟨["e"], []⟩ : GetOnlineFeatureResponse).results.length) := by
  decide

/-- C3 (amended): for every response the builder produces,
`len(metadata.feature_names) = len(results)` holds provided every
requested entity name carries at least one entity value (with an empty
vector the counts diverge), and — unconditionally — every result
column has values, statuses and event timestamps of equal length. -/
theorem c3_alignment (ek : List (String × List EntityIdValue))
    (rows : List OnlineStoreRow) (fvs : String → Option FeatureView)
    (lm : EntityColumnRef → Option String) (fs : List Feature) (ffn : Bool)
    (now : Int) (resp : GetOnlineFeatureResponse)
    (h : try_from ek rows fvs lm fs ffn now = .ok resp) :
    ((∀ p ∈ ek, p.2 ≠ []) →
      resp.feature_names.length = resp.results.length) ∧
    ∀ fr ∈ resp.results, fr.values.length = fr.statuses.length ∧
      fr.values.length = fr.event_timestamps.length := by
  simp only [try_from] at h
  obtain ⟨g, hg, h2⟩ := Res.bind_eq_ok h
  obtain ⟨r0, hr, h3⟩ := Res.bind_eq_ok h2
  injection h3 with h4
  subst h4
  have hA0 : Aligned (set_full_feature_names
      (with_capacity (ek.length + fs.length) (maxLen ek)) ffn).results := by
    intro fr hfr
    simp [set_full_feature_names, with_capacity] at hfr
  constructor
  · intro hne
    have hGS0 : GroupStart (set_full_feature_names
        (with_capacity (ek.length + fs.length) (maxLen ek)) ffn) := by
      refine ⟨rfl, rfl, rfl, ?_⟩
      intro pr hpr
      simp [set_full_feature_names, with_capacity] at hpr
    obtain ⟨b', g', fs', heq, hGS, hA⟩ := process_entities_spec ek hGS0 hA0 hne
    rw [heq] at hr
    injection hr with hr2
    subst hr2
    obtain ⟨hel1, hel2⟩ := add_entity_less_keeps
      (g' entity_less_request_entity_key) b' hGS.1 hA
    obtain ⟨hmf1, _⟩ := add_missing_features_keeps
      ((g' entity_less_request_entity_key).foldl (fun l row => l.erase row.feature) fs')
      (add_entity_less_features b' (g' entity_less_request_entity_key)) hel1 hel2
    exact hmf1
  · have hAr := process_entities_ok_aligned ek hr hA0
    have hAel := add_entity_less_aligned
      (r0.2.1 entity_less_request_entity_key) r0.1 hAr
    have hAmf := add_missing_features_aligned
      ((r0.2.1 entity_less_request_entity_key).foldl
        (fun l row => l.erase row.feature) r0.2.2)
      (add_entity_less_features r0.1 (r0.2.1 entity_less_request_entity_key)) hAel
    exact fun fr hfr => hAmf fr hfr

/-- C3 witness: the amended statement at a concrete one-entity request
with no store rows, its nonemptiness antecedent discharged. -/
theorem c3_alignment_witness :
    ((∀ p ∈ [("e", [EntityIdValue.int 5])], p.2 ≠ []) →
      (⟨["e"], [⟨[⟨some (.int64Val 5)⟩], [.present], [0]⟩]⟩ :
        GetOnlineFeatureResponse).feature_names.length =
      (⟨["e"], [⟨[⟨some (.int64Val 5)⟩], [.present], [0]⟩]⟩ :
        GetOnlineFeatureResponse).results.length) ∧
    ∀ fr ∈ (⟨["e"], [⟨[⟨some (.int64Val 5)⟩], [.present], [0]⟩]⟩ :
        GetOnlineFeatureResponse).results,
      fr.values.length = fr.statuses.length ∧
      fr.values.length = fr.event_timestamps.length :=
  c3_alignment [("e", [.int 5])] [] (fun _ => none) (fun _ => none) [] false 0
    ⟨["e"], [⟨[⟨some (.int64Val 5)⟩], [.present], [0]⟩]⟩ (by decide)

theorem build_lookup_key_mapping_eq (L : List (Feature × FeatureView))
    (names : List String) :
    build_lookup_key_mapping L names = L.foldl (blkmOuter names) (fun _ => none) :=
  rfl

theorem foldl_fun_preserve {σ κ α : Type}
    (step : (κ → Option α) → σ → (κ → Option α)) (key : κ)
    (hstep : ∀ acc x, (step acc x) key = acc key) :
    ∀ (l : List σ) (acc : κ → Option α), (l.foldl step acc) key = acc key := by
  intro l
  induction l with
  | nil => intro acc; rfl
  | cons x t ih =>
    intro acc
    rw [List.foldl_cons, ih]
    exact hstep acc x

theorem foldl_fun_reach {σ κ α : Type}
    (step : (κ → Option α) → σ → (κ → Option α)) (key : κ) (v : α) :
    ∀ (l : List σ) (acc : κ → Option α),
      (∀ x ∈ l, ∀ a, a key = some v → (step a x) key = some v) →
      ((∃ x ∈ l, ∀ a, (step a x) key = some v) ∨ acc key = some v) →
      (l.foldl step acc) key = some v := by
  intro l
  induction l with
  | nil =>
    intro acc _ h
    rcases h with ⟨x, hx, _⟩ | h
    · exact absurd hx (List.not_mem_nil x)
    · exact h
  | cons y t ih =>
    intro acc hpres h
    rw [List.foldl_cons]
    have hpres' : ∀ x ∈ t, ∀ a, a key = some v → (step a x) key = some v :=
      fun x hx => hpres x (List.mem_cons_of_mem _ hx)
    rcases h with ⟨x, hx, hset⟩ | h
    · rcases List.mem_cons.mp hx with heq | hm
      · subst heq
        exact ih _ hpres' (Or.inr (hset acc))
      · exact ih _ hpres' (Or.inl ⟨x, hm, hset⟩)
    · exact ih _ hpres' (Or.inr (hpres y (List.mem_cons_self _ _) acc h))

theorem blkmInner_preserve (view : FeatureView) (names : List String)
    (cols : List Field) (acc : EntityColumnRef → Option String)
    (key : EntityColumnRef) (h : key.view_name ≠ view.name) :
    (cols.foldl (blkmInner view names) acc) key = acc key :=
  foldl_fun_preserve (blkmInner view names) key
    (fun a c => if_neg (fun he => h (by rw [he]))) cols acc

theorem blkmInner_write (V : FeatureView) (names : List String) (col : Field)
    (m : List (String × String)) (al : String)
    (hcols : V.entity_columns = [col]) (hjkm : V.join_key_map = some m)
    (hal : lookupStr m col.name = some al) (hin : names.contains al = true)
    (acc : EntityColumnRef → Option String) :
    (V.entity_columns.foldl (blkmInner V names) acc) ⟨V.name, col.name⟩ = some al := by
  rw [hcols, List.foldl_cons, List.foldl_nil]
  have hmem : al ∈ names := by simpa using hin
  simp [blkmInner, hjkm, hal, hmem]

theorem blkmOuter_write (names : List String) (V : FeatureView) (col : Field)
    (m : List (String × String)) (al : String)
    (hel : V.is_entity_less = false) (hcols : V.entity_columns = [col])
    (hjkm : V.join_key_map = some m) (hal : lookupStr m col.name = some al)
    (hin : names.contains al = true) (a : EntityColumnRef → Option String)
    (x : Feature × FeatureView) (hx : x.2 = V) :
    (blkmOuter names a x) ⟨V.name, col.name⟩ = some al := by
  unfold blkmOuter
  rw [hx, hel, if_neg Bool.false_ne_true]
  exact blkmInner_write V names col m al hcols hjkm hal hin a

theorem blkmOuter_preserve (names : List String) (V : FeatureView) (col : Field)
    (al : String) (a : EntityColumnRef → Option String) (x : Feature × FeatureView)
    (hn : x.2.name ≠ V.name) (ha : a ⟨V.name, col.name⟩ = some al) :
    (blkmOuter names a x) ⟨V.name, col.name⟩ = some al := by
  unfold blkmOuter
  by_cases hx2 : x.2.is_entity_less = true
  · rw [if_pos hx2]
    exact ha
  · rw [if_neg hx2]
    rw [blkmInner_preserve x.2 names x.2.entity_columns a ⟨V.name, col.name⟩
      (fun he => hn (he.symm))]
    exact ha

/-- `build_lookup_key_mapping` resolves a single-column aliased view to
its alias when the alias is among the request's entity names, provided
views sharing the view's name are identical. -/
theorem build_lookup_key_mapping_alias (L : List (Feature × FeatureView))
    (names : List String) (V : FeatureView) (col : Field)
    (m : List (String × String)) (al : String)
    (hel : V.is_entity_less = false) (hcols : V.entity_columns = [col])
    (hjkm : V.join_key_map = some m) (hal : lookupStr m col.name = some al)
    (hin : names.contains al = true)
    (hmem : ∃ f, (f, V) ∈ L)
    (hnames : ∀ q ∈ L, q.2.name = V.name → q.2 = V) :
    build_lookup_key_mapping L names ⟨V.name, col.name⟩ = some al := by
  rw [build_lookup_key_mapping_eq]
  refine foldl_fun_reach (blkmOuter names) _ al L _ ?_ ?_
  · intro x hx a ha
    by_cases hn : x.2.name = V.name
    · exact blkmOuter_write names V col m al hel hcols hjkm hal hin a x
        (hnames x hx hn)
    · exact blkmOuter_preserve names V col al a x hn ha
  · obtain ⟨f, hf⟩ := hmem
    exact Or.inl ⟨(f, V), hf,
      fun a => blkmOuter_write names V col m al hel hcols hjkm hal hin a (f, V) rfl⟩

theorem build_lookup_keys_origins (view : FeatureView)
    (lm : EntityColumnRef → Option String) :
    ∀ (cols : List Field) (lks : List LookupKey),
    build_lookup_keys view lm cols = .ok lks →
    lks.map (fun lk => lk.origin_col_name) = cols.map (fun c => c.name) := by
  intro cols
  induction cols with
  | nil =>
    intro lks h
    simp only [build_lookup_keys] at h
    injection h with h2
    subst h2
    rfl
  | cons c t ih =>
    intro lks h
    simp only [build_lookup_keys] at h
    cases hl : lm ⟨view.name, c.name⟩ with
    | none =>
      simp only [hl] at h
      exact absurd h (by simp [Res.fail])
    | some lk =>
      simp only [hl] at h
      obtain ⟨r, hr, h2⟩ := Res.bind_eq_ok h
      injection h2 with h3
      subst h3
      simp only [List.map_cons]
      rw [ih r hr]

theorem lookupStrKeys_eq_none : ∀ (c : List (String × List EntityKey)) (k : String),
    (∀ e ∈ c, e.1 ≠ k) → lookupStrKeys c k = none := by
  intro c
  induction c with
  | nil => intro k _; rfl
  | cons e t ih =>
    intro k h
    obtain ⟨k1, v1⟩ := e
    simp only [lookupStrKeys]
    rw [if_neg (h (k1, v1) (List.mem_cons_self _ _))]
    exact ih k (fun e2 he2 => h e2 (List.mem_cons_of_mem _ he2))

/-- Characterisation of `build_keys_vec` for a single lookup key: every
produced entity key carries the origin column name and the converted
value from the *lookup* (alias) vector. -/
theorem build_keys_vec_single (req : List (String × List EntityIdValue))
    (cn al : String) (vt : ValueTypeEnum) (vs : List EntityIdValue)
    (hvs : lookupVals req al = some vs)
    (hallok : ∀ v ∈ vs, ∃ pv, to_proto_value v vt = .ok pv) :
    ∀ (m i : Nat), i + m ≤ vs.length →
    ∃ eks, build_keys_vec req [⟨cn, al, vt⟩] i m = .ok eks ∧ eks.length = m ∧
      ∀ j, j < m → ∃ v pv, vs[i + j]? = some v ∧ to_proto_value v vt = .ok pv ∧
        eks[j]? = some ⟨[cn], [pv]⟩ := by
  intro m
  induction m with
  | zero =>
    intro i _
    exact ⟨[], rfl, rfl, fun j hj => absurd hj (by omega)⟩
  | succ m2 ih =>
    intro i hle
    have hi : i < vs.length := by omega
    have hvget : vs[i]? = some vs[i] := List.getElem?_eq_getElem hi
    obtain ⟨pv, hpv⟩ := hallok vs[i] (List.getElem_mem hi)
    have hbev : build_entity_values req i [(⟨cn, al, vt⟩ : LookupKey)] = .ok [pv] := by
      simp only [build_entity_values, hvs, List.get?_eq_getElem?, hvget, hpv,
        Res.bind_ok]
    obtain ⟨eks2, heks2, hlen2, hidx2⟩ := ih (i + 1) (by omega)
    refine ⟨⟨[cn], [pv]⟩ :: eks2, ?_, ?_, ?_⟩
    · simp only [build_keys_vec, hbev, Res.bind_ok, heks2, List.map_cons,
        List.map_nil]
    · simp [hlen2]
    · intro j hj
      cases j with
      | zero =>
        exact ⟨vs[i], pv, hvget, hpv, by simp⟩
      | succ j2 =>
        obtain ⟨v, pv2, hv, hpv2, hek⟩ := hidx2 j2 (by omega)
        refine ⟨v, pv2, ?_, hpv2, ?_⟩
        · have harith : i + (j2 + 1) = (i + 1) + j2 := by omega
          rw [harith]
          exact hv
        · simpa using hek

/-- Traversal of `feature_views_to_keys_aux`: when the cache holds no
entry for the aliased view's origin-column key and no earlier view
shares that key, the view's entity-key vector is built from the alias
vector. -/
theorem ftka_alias_aux (req : List (String × List EntityIdValue))
    (lm : EntityColumnRef → Option String) (f : Feature) (V : FeatureView)
    (col : Field) (al : String) (vs : List EntityIdValue)
    (hel : V.is_entity_less = false) (hcols : V.entity_columns = [col])
    (hlm : lm ⟨V.name, col.name⟩ = some al)
    (hvs : lookupVals req al = some vs)
    (hallok : ∀ v ∈ vs, ∃ pv, to_proto_value v col.value_type = .ok pv) :
    ∀ (L1 L2 : List (Feature × FeatureView))
      (cache : List (String × List EntityKey)) (out : List FeatureWithKeys),
    feature_views_to_keys_aux req lm (L1 ++ (f, V) :: L2) cache = .ok out →
    (∀ e ∈ cache, e.1 ≠ viewCacheKey V) →
    (∀ q ∈ L1, q.2.is_entity_less = false → viewCacheKey q.2 ≠ viewCacheKey V) →
    ∃ eks, ⟨f, .plain, eks⟩ ∈ out ∧ eks.length = vs.length ∧
      ∀ j, j < vs.length → ∃ v pv, vs[j]? = some v ∧
        to_proto_value v col.value_type = .ok pv ∧
        eks[j]? = some ⟨[col.name], [pv]⟩ := by
  intro L1
  induction L1 with
  | nil =>
    intro L2 cache out h hcache _
    have hne : ¬ (V.is_entity_less = true) := by simp [hel]
    simp only [List.nil_append, feature_views_to_keys_aux, if_neg hne] at h
    have hlksV : build_lookup_keys V lm V.entity_columns =
        .ok [⟨col.name, al, col.value_type⟩] := by
      rw [hcols]
      simp only [build_lookup_keys, hlm, Res.bind_ok]
    rw [hlksV] at h
    simp only [Res.bind_ok] at h
    rw [if_neg (by simp)] at h
    have hchk : check_requested req f [(⟨col.name, al, col.value_type⟩ : LookupKey)] =
        .ok () := by
      simp [check_requested, hvs]
    rw [hchk] at h
    simp only [Res.bind_ok] at h
    have hnone : lookupStrKeys cache (String.intercalate ","
        (([(⟨col.name, al, col.value_type⟩ : LookupKey)]).map
          (fun lk => lk.origin_col_name))) = none := by
      have hkey : String.intercalate ","
          (([(⟨col.name, al, col.value_type⟩ : LookupKey)]).map
            (fun lk => lk.origin_col_name)) = viewCacheKey V := by
        simp [viewCacheKey, hcols]
      rw [hkey]
      exact lookupStrKeys_eq_none cache (viewCacheKey V) hcache
    simp only [hnone, hvs] at h
    obtain ⟨eks0, hbk, h4⟩ := Res.bind_eq_ok h
    obtain ⟨r, hr, hout⟩ := Res.bind_eq_ok h4
    injection hout with hout2
    subst hout2
    obtain ⟨eks, heks, hlen, hidx⟩ := build_keys_vec_single req col.name al
      col.value_type vs hvs hallok vs.length 0 (by omega)
    rw [heks] at hbk
    injection hbk with he
    subst he
    refine ⟨eks, List.mem_cons_self _ _, hlen, ?_⟩
    intro j hj
    obtain ⟨v, pv, hv, hpv, hek⟩ := hidx j hj
    exact ⟨v, pv, by simpa using hv, hpv, hek⟩
  | cons q t ih =>
    intro L2 cache out h hcache hfresh
    obtain ⟨f1, V1⟩ := q
    by_cases h1el : V1.is_entity_less = true
    · simp only [List.cons_append, feature_views_to_keys_aux, if_pos h1el] at h
      obtain ⟨r, hr, hout⟩ := Res.bind_eq_ok h
      injection hout with hout2
      subst hout2
      obtain ⟨eks, hm, hl, hj⟩ := ih L2 cache r hr hcache
        (fun q2 hq2 => hfresh q2 (List.mem_cons_of_mem _ hq2))
      exact ⟨eks, List.mem_cons_of_mem _ hm, hl, hj⟩
    · have h1el' : V1.is_entity_less = false := by
        revert h1el
        cases V1.is_entity_less <;> simp
      simp only [List.cons_append, feature_views_to_keys_aux, if_neg h1el] at h
      obtain ⟨lks1, hlks1, h2⟩ := Res.bind_eq_ok h
      by_cases hemp : lks1.isEmpty
      · rw [if_pos hemp] at h2
        exact absurd h2 (by simp [Res.fail])
      · rw [if_neg hemp] at h2
        obtain ⟨u, hchk, h3⟩ := Res.bind_eq_ok h2
        have hck : String.intercalate "," (lks1.map (fun lk => lk.origin_col_name)) =
            viewCacheKey V1 := by
          rw [build_lookup_keys_origins V1 lm V1.entity_columns lks1 hlks1]
          rfl
        cases hcl : lookupStrKeys cache
            (String.intercalate "," (lks1.map (fun lk => lk.origin_col_name))) with
        | some ek0 =>
          simp only [hcl] at h3
          obtain ⟨r, hr, hout⟩ := Res.bind_eq_ok h3
          injection hout with hout2
          subst hout2
          obtain ⟨eks, hm, hl, hj⟩ := ih L2 cache r hr hcache
            (fun q2 hq2 => hfresh q2 (List.mem_cons_of_mem _ hq2))
          exact ⟨eks, List.mem_cons_of_mem _ hm, hl, hj⟩
        | none =>
          simp only [hcl] at h3
          cases lks1 with
          | nil => simp [List.isEmpty_nil] at hemp
          | cons first rest2 =>
            cases hfv : lookupVals req first.lookup with
            | none =>
              simp only [hfv] at h3
              exact absurd h3 (by simp)
            | some fvals =>
              simp only [hfv] at h3
              obtain ⟨ek1, hbk1, h4⟩ := Res.bind_eq_ok h3
              obtain ⟨r, hr, hout⟩ := Res.bind_eq_ok h4
              injection hout with hout2
              subst hout2
              have hcache' : ∀ e ∈ (String.intercalate ","
                  ((first :: rest2).map (fun lk => lk.origin_col_name)), ek1) :: cache,
                  e.1 ≠ viewCacheKey V := by
                intro e he
                rcases List.mem_cons.mp he with heq | hm
                · subst heq
                  intro hcontra
                  apply hfresh (f1, V1) (List.mem_cons_self _ _) h1el'
                  rw [← hck]
                  exact hcontra
                · exact hcache e hm
              obtain ⟨eks, hm, hl, hj⟩ := ih L2 _ r hr hcache'
                (fun q2 hq2 => hfresh q2 (List.mem_cons_of_mem _ hq2))
              exact ⟨eks, List.mem_cons_of_mem _ hm, hl, hj⟩

/-- C4 counterexample: the key-vector cache is keyed by *origin* column
names only, so a view `v` whose alias maps `driver_id` to `truck_id`
reuses the vector a previous view `w` built from the `driver_id`
request values: `v`'s mapping correctly resolves to `truck_id` (whose
request vector is `[2]`), but `v`'s planned entity keys carry the value
`1` taken from `driver_id`. -/
theorem c4_cache_ignores_alias :
    build_lookup_key_mapping
        [(⟨"w", "fw"⟩, ⟨"w", [], 0, ["d"], [⟨"driver_id", .int64⟩], none⟩),
         (⟨"v", "fv"⟩, ⟨"v", [], 0, ["d"], [⟨"driver_id", .int64⟩],
            some [("driver_id", "truck_id")]⟩)]
        ["driver_id", "truck_id"] ⟨"v", "driver_id"⟩ = some "truck_id" ∧
    lookupVals [("driver_id", [.int 1]), ("truck_id", [.int 2])] "truck_id" =
      some [.int 2] ∧
    to_proto_value (.int 2) .int64 = .ok ⟨some (.int64Val 2)⟩ ∧
    feature_views_to_keys
        [(⟨"w", "fw"⟩, ⟨"w", [], 0, ["d"], [⟨"driver_id", .int64⟩], none⟩),
         (⟨"v", "fv"⟩, ⟨"v", [], 0, ["d"], [⟨"driver_id", .int64⟩],
            some [("driver_id", "truck_id")]⟩)]
        [("driver_id", [.int 1]), ("truck_id", [.int 2])]
        (build_lookup_key_mapping
          [(⟨"w", "fw"⟩, ⟨"w", [], 0, ["d"], [⟨"driver_id", .int64⟩], none⟩),
           (⟨"v", "fv"⟩, ⟨"v", [], 0, ["d"], [⟨"driver_id", .int64⟩],
              some [("driver_id", "truck_id")]⟩)]
          ["driver_id", "truck_id"]) =
      .ok [⟨⟨"w", "fw"⟩, .plain, [⟨["driver_id"], [⟨some (.int64Val 1)⟩]⟩]⟩,
           ⟨⟨"v", "fv"⟩, .plain, [⟨["driver_id"], [⟨some (.int64Val 1)⟩]⟩]⟩] := by
  decide

/-- C4 (amended): for a resolved single-column view whose alias names a
request entity, provided no *earlier* view shares its origin-column
cache key, same-named views are identical, and the alias vector's
values convert, the planner resolves the column to the alias and builds
the view's entity-key vector from the request vector supplied under the
alias. -/
theorem c4_alias_planning
    (L1 L2 : List (Feature × FeatureView)) (names : List String)
    (req : List (String × List EntityIdValue)) (f : Feature) (V : FeatureView)
    (col : Field) (m : List (String × String)) (al : String)
    (vs : List EntityIdValue) (out : List FeatureWithKeys)
    (hel : V.is_entity_less = false)
    (hcols : V.entity_columns = [col])
    (hjkm : V.join_key_map = some m)
    (hal : lookupStr m col.name = some al)
    (hin : names.contains al = true)
    (hnames : ∀ q ∈ L1 ++ (f, V) :: L2, q.2.name = V.name → q.2 = V)
    (hfresh : ∀ q ∈ L1, q.2.is_entity_less = false →
      viewCacheKey q.2 ≠ viewCacheKey V)
    (hvs : lookupVals req al = some vs)
    (hallok : ∀ v ∈ vs, ∃ pv, to_proto_value v col.value_type = .ok pv)
    (hok : feature_views_to_keys (L1 ++ (f, V) :: L2) req
      (build_lookup_key_mapping (L1 ++ (f, V) :: L2) names) = .ok out) :
    build_lookup_key_mapping (L1 ++ (f, V) :: L2) names ⟨V.name, col.name⟩ =
      some al ∧
    ∃ eks, ⟨f, .plain, eks⟩ ∈ out ∧ eks.length = vs.length ∧
      ∀ j, j < vs.length → ∃ v pv, vs[j]? = some v ∧
        to_proto_value v col.value_type = .ok pv ∧
        eks[j]? = some ⟨[col.name], [pv]⟩ := by
  have hlm := build_lookup_key_mapping_alias (L1 ++ (f, V) :: L2) names V col m al
    hel hcols hjkm hal hin
    ⟨f, List.mem_append_right L1 (List.mem_cons_self _ _)⟩ hnames
  refine ⟨hlm, ?_⟩
  exact ftka_alias_aux req (build_lookup_key_mapping (L1 ++ (f, V) :: L2) names)
    f V col al vs hel hcols hlm hvs hallok L1 L2 [] out hok
    (fun e he => absurd he (List.not_mem_nil e)) hfresh

/-- C4 witness: the amended theorem at a one-view request whose alias
redirects `driver_id` lookups to the `truck_id` vector. -/
theorem c4_alias_planning_witness :
    build_lookup_key_mapping
        [(⟨"v", "fv"⟩, ⟨"v", [], 0, ["d"], [⟨"driver_id", .int64⟩],
           some [("driver_id", "truck_id")]⟩)]
        ["driver_id", "truck_id"] ⟨"v", "driver_id"⟩ = some "truck_id" ∧
    ∃ eks, (⟨⟨"v", "fv"⟩, .plain, eks⟩ : FeatureWithKeys) ∈
        [(⟨⟨"v", "fv"⟩, .plain, [⟨["driver_id"], [⟨some (.int64Val 2)⟩]⟩]⟩ :
          FeatureWithKeys)] ∧
      eks.length = [EntityIdValue.int 2].length ∧
      ∀ j, j < [EntityIdValue.int 2].length → ∃ v pv,
        [EntityIdValue.int 2][j]? = some v ∧
        to_proto_value v ValueTypeEnum.int64 = .ok pv ∧
        eks[j]? = some ⟨["driver_id"], [pv]⟩ :=
  c4_alias_planning [] [] ["driver_id", "truck_id"]
    [("driver_id", [.int 1]), ("truck_id", [.int 2])] ⟨"v", "fv"⟩
    ⟨"v", [], 0, ["d"], [⟨"driver_id", .int64⟩], some [("driver_id", "truck_id")]⟩
    ⟨"driver_id", .int64⟩ [("driver_id", "truck_id")] "truck_id" [.int 2]
    [⟨⟨"v", "fv"⟩, .plain, [⟨["driver_id"], [⟨some (.int64Val 2)⟩]⟩]⟩]
    (by decide) (by decide) (by decide) (by decide) (by decide) (by decide)
    (by decide) (by decide)
    (fun v hv => by
      rw [List.mem_singleton] at hv
      subst hv
      exact ⟨⟨some (.int64Val 2)⟩, rfl⟩)
    (by decide)

end FeastModel

